import Mathlib

/-!
Verification of the radar-chart configuration subsystem of the portfolio site
(`chart-config.js` — the `ChartConfigManager` class and `DEFAULT_CHART_CONFIG` —
and the radar-chart renderer in `script.js`: `drawAxes`, `startAnimation`,
`detectHover`).

JavaScript runtime values exchanged with the manager are JSON-like: `null`,
booleans, numbers (all numbers occurring in the configs are integers, so we use
`Int`), strings, arrays, and plain objects.  Objects are modelled as ordered
association lists of own enumerable string keys, matching JavaScript insertion
order for the non-integer-like keys that configs use.  Expando string
properties that JavaScript would attach to an *array* target when an object is
merged over it are not representable here; they are dropped by the
`JSON.stringify`/`JSON.parse` round-trip the manager performs on save/load, so
the model keeps such an array unchanged.  `localStorage.setItem` is modelled as
always succeeding (quota errors are out of scope), and the stored JSON string
is modelled by the parsed value itself, since the JSON round-trip is the
identity on these values.
-/

inductive JVal where
  | null
  | bool (b : Bool)
  | num (n : Int)
  | str (s : String)
  | arr (elems : List JVal)
  | obj (fields : List (String × JVal))

mutual

/-- Boolean equality on JSON values (deriving fails on the nested inductive). -/
def jbeq : JVal → JVal → Bool
  | .null, .null => true
  | .bool a, .bool b => a == b
  | .num a, .num b => a == b
  | .str a, .str b => a == b
  | .arr xs, .arr ys => jbeqList xs ys
  | .obj fs, .obj gs => jbeqFields fs gs
  | _, _ => false

def jbeqList : List JVal → List JVal → Bool
  | [], [] => true
  | x :: xs, y :: ys => jbeq x y && jbeqList xs ys
  | _, _ => false

def jbeqFields : List (String × JVal) → List (String × JVal) → Bool
  | [], [] => true
  | (k, v) :: fs, (k2, v2) :: gs => k == k2 && jbeq v v2 && jbeqFields fs gs
  | _, _ => false

end

mutual

theorem jbeq_iff : ∀ a b : JVal, jbeq a b = true ↔ a = b
  | .null, b => by cases b <;> simp [jbeq]
  | .bool x, b => by cases b <;> simp [jbeq]
  | .num x, b => by cases b <;> simp [jbeq]
  | .str x, b => by cases b <;> simp [jbeq]
  | .arr xs, b => by
      cases b <;> simp [jbeq]
      exact jbeqList_iff xs _
  | .obj fs, b => by
      cases b <;> simp [jbeq]
      exact jbeqFields_iff fs _

theorem jbeqList_iff : ∀ xs ys : List JVal, jbeqList xs ys = true ↔ xs = ys
  | [], ys => by cases ys <;> simp [jbeqList]
  | x :: xs, ys => by
      cases ys with
      | nil => simp [jbeqList]
      | cons y ys =>
          simp [jbeqList, jbeq_iff x y, jbeqList_iff xs ys]

theorem jbeqFields_iff :
    ∀ fs gs : List (String × JVal), jbeqFields fs gs = true ↔ fs = gs
  | [], gs => by cases gs <;> simp [jbeqFields]
  | (k, v) :: fs, gs => by
      cases gs with
      | nil => simp [jbeqFields]
      | cons g gs =>
          obtain ⟨k2, v2⟩ := g
          simp [jbeqFields, jbeq_iff v v2, jbeqFields_iff fs gs, and_assoc]

end

instance : DecidableEq JVal := fun a b =>
  decidable_of_iff (jbeq a b = true) (jbeq_iff a b)

/-- JavaScript truthiness of a JSON value (`if (x)`); `NaN` cannot occur since
all numbers in play are integers. -/
def truthy : JVal → Bool
  | .null => false
  | .bool b => b
  | .num n => n != 0
  | .str s => s != ""
  | .arr _ => true
  | .obj _ => true

/-- Property read `obj[key]` on an object's own fields; `none` plays the role
of `undefined`. -/
def getKey (fs : List (String × JVal)) (k : String) : Option JVal :=
  match fs.find? (fun p => p.1 == k) with
  | some p => some p.2
  | none => none

/-- Property write `obj[key] = v`: overwrite in place if the key exists
(JavaScript keeps the original slot position), otherwise append. -/
def setKey (fs : List (String × JVal)) (k : String) (v : JVal) :
    List (String × JVal) :=
  if fs.any (fun p => p.1 == k) then
    fs.map (fun p => if p.1 == k then (k, v) else p)
  else
    fs ++ [(k, v)]

/-- The decimal digits of a natural number, most significant first; `fuel`
bounds the recursion depth (any `fuel > n` is enough). -/
def natChars (fuel n : ℕ) : List Char :=
  match fuel with
  | 0 => []
  | fuel + 1 =>
    if n < 10 then [Char.ofNat (48 + n)]
    else natChars fuel (n / 10) ++ [Char.ofNat (48 + n % 10)]

/-- The canonical decimal string of a natural number (what JavaScript prints
for an array index). -/
def natToStr (n : ℕ) : String := String.mk (natChars (n + 1) n)

/-- The own enumerable entries a `for (const key in src)` loop visits: the
fields of an object (the list is taken to be in `for-in` enumeration order —
integer-like keys ascending first, then string keys in insertion order),
the index-keyed elements of an array, and the index-keyed single-character
strings of a string; booleans, numbers and `null` have none. -/
def srcFields : JVal → List (String × JVal)
  | .obj fs => fs
  | .arr xs => ((List.range xs.length).zip xs).map (fun p => (natToStr p.1, p.2))
  | .str s =>
      ((List.range s.data.length).zip s.data).map
        (fun p => (natToStr p.1, .str (String.singleton p.2)))
  | _ => []

mutual

/-- One key of `ChartConfigManager.mergeConfig`'s inner `merge(obj, src)`,
restricted to the exception-free object fragment: `cur` is `obj[key]`
(`none` = absent), the second argument is `src[key]`.  A non-null, non-array
object source is merged recursively: into the existing object if `obj[key]`
is truthy a plain object, into a fresh `{}` (i.e. a copy of the source) if
`obj[key]` is falsy or absent.  Everything else — arrays, primitives,
`null` — replaces the target value wholesale.  On a truthy non-object
target the real strict-mode code assigns into the value instead (mutating
an array element-wise, throwing a TypeError on a primitive); that full
behaviour is modelled by `mergeValE` below, which agrees with this pure
restriction on the aligned fragment (`alignedVal`/`alignedFields`). -/
def mergeVal (cur : Option JVal) : JVal → JVal
  | .obj fs =>
    match cur with
    | some c =>
      if truthy c then
        match c with
        | .obj cfs => .obj (mergeFields cfs fs)
        | other => other
      else .obj (mergeFields [] fs)
    | none => .obj (mergeFields [] fs)
  | v => v

/-- The `for (const key in src)` loop of `merge(obj, src)`, processing the
source entries left to right over the target fields. -/
def mergeFields (t : List (String × JVal)) : List (String × JVal) → List (String × JVal)
  | [] => t
  | (k, v) :: rest => mergeFields (setKey t k (mergeVal (getKey t k) v)) rest

end

/-- `ChartConfigManager.mergeConfig(target, source)` on the exception-free
object fragment: deep-copies `target` (the identity on our pure values) and
runs `merge` over it.  Every caller in the repository passes an object
target.  The full behaviour — including assignment into array targets and
the strict-mode TypeError on primitive targets — is `mergeConfigE` below. -/
def mergeConfig (target source : JVal) : JVal :=
  match target with
  | .obj tf => .obj (mergeFields tf (srcFields source))
  | t => t

/-- Keys of an association list are pairwise distinct (true of the field list
of every JavaScript object). -/
def nodupKeys : List (String × JVal) → Bool
  | [] => true
  | (k, _) :: rest => !(rest.any (fun p => p.1 == k)) && nodupKeys rest

mutual

/-- A value is JavaScript-representable as a merge source: every object in it
(along the spine that `merge` can recurse into) has pairwise-distinct keys.
Array elements are only ever replaced wholesale, never merged into, so they
are unconstrained. -/
def srcWF : JVal → Bool
  | .obj fs => nodupKeys fs && srcWFFields fs
  | _ => true

def srcWFFields : List (String × JVal) → Bool
  | [] => true
  | (_, v) :: rest => srcWF v && srcWFFields rest

end

/-- The compiled-in `DEFAULT_CHART_CONFIG` object of `chart-config.js`,
transcribed field by field. -/
def DEFAULT_CHART_CONFIG : JVal :=
  .obj [
    ("chart", .obj [
      ("width", .num 400),
      ("height", .num 400),
      ("backgroundColor", .str "transparent"),
      ("padding", .num 40),
      ("animationDuration", .num 1000),
      ("animationEasing", .str "easeOutQuart")]),
    ("radar", .obj [
      ("levels", .num 5),
      ("levelStep", .num 20),
      ("maxValue", .num 100),
      ("showGrid", .bool true),
      ("showAxes", .bool true),
      ("showLabels", .bool true),
      ("showValues", .bool true),
      ("gridColor", .str "rgba(255, 255, 255, 0.1)"),
      ("axisColor", .str "rgba(255, 255, 255, 0.2)"),
      ("labelColor", .str "#94a3b8"),
      ("valueColor", .str "#06b6d4")]),
    ("series", .arr [
      .obj [
        ("name", .str "当前能力"),
        ("color", .str "#06b6d4"),
        ("fillColor", .str "rgba(6, 182, 212, 0.2)"),
        ("strokeWidth", .num 2),
        ("pointRadius", .num 4),
        ("pointColor", .str "#06b6d4"),
        ("showPoints", .bool true),
        ("showFill", .bool true)],
      .obj [
        ("name", .str "目标能力"),
        ("color", .str "#8b5cf6"),
        ("fillColor", .str "rgba(139, 92, 246, 0.1)"),
        ("strokeWidth", .num 2),
        ("pointRadius", .num 3),
        ("pointColor", .str "#8b5cf6"),
        ("showPoints", .bool true),
        ("showFill", .bool false)]]),
    ("labels", .arr [
      .str "前端开发",
      .str "后端开发",
      .str "移动开发",
      .str "数据分析",
      .str "项目管理",
      .str "UI/UX设计"]),
    ("interaction", .obj [
      ("enableHover", .bool true),
      ("enableClick", .bool true),
      ("enableTooltip", .bool true),
      ("hoverRadius", .num 8),
      ("hoverColor", .str "#ffffff"),
      ("tooltipBackground", .str "rgba(0, 0, 0, 0.8)"),
      ("tooltipTextColor", .str "#ffffff"),
      ("tooltipBorderRadius", .num 8),
      ("tooltipPadding", .num 12)]),
    ("animation", .obj [
      ("enableEntryAnimation", .bool true),
      ("enableHoverAnimation", .bool true),
      ("enableUpdateAnimation", .bool true),
      ("entryDelay", .num 100),
      ("hoverDuration", .num 200),
      ("updateDuration", .num 800)]),
    ("responsive", .obj [
      ("enabled", .bool true),
      ("breakpoints", .obj [
        ("mobile", .num 480),
        ("tablet", .num 768),
        ("desktop", .num 1024)]),
      ("mobileConfig", .obj [
        ("chart", .obj [
          ("width", .num 280),
          ("height", .num 280),
          ("padding", .num 30)]),
        ("radar", .obj [
          ("levels", .num 4)])]),
      ("tabletConfig", .obj [
        ("chart", .obj [
          ("width", .num 350),
          ("height", .num 350),
          ("padding", .num 35)])])]),
    ("themes", .obj [
      ("dark", .obj [
        ("chart", .obj [
          ("backgroundColor", .str "transparent")]),
        ("radar", .obj [
          ("gridColor", .str "rgba(255, 255, 255, 0.1)"),
          ("axisColor", .str "rgba(255, 255, 255, 0.2)"),
          ("labelColor", .str "#94a3b8")])]),
      ("light", .obj [
        ("chart", .obj [
          ("backgroundColor", .str "#ffffff")]),
        ("radar", .obj [
          ("gridColor", .str "rgba(0, 0, 0, 0.1)"),
          ("axisColor", .str "rgba(0, 0, 0, 0.2)"),
          ("labelColor", .str "#64748b")])])])]

/-- Property read `v[key]` for a possibly non-object receiver: field lookup on
an object, `undefined` (`none`) on anything else.  (Reading a property of
`null`/`undefined` would throw in JavaScript; no claim exercises that path.) -/
def jget (v : JVal) (k : String) : Option JVal :=
  match v with
  | .obj fs => getKey fs k
  | _ => none

/-- A registered configuration listener: a callback receiving the event name
and payload; `.error` models the callback throwing. -/
def Listener : Type := String → JVal → Except String Unit

/-- Run one listener inside the manager's `try`/`catch`: a thrown exception is
caught and surfaces only as the logged message. -/
def invokeListener (l : Listener) (e : String) (d : JVal) : Option String :=
  match l e d with
  | .ok _ => none
  | .error msg => some msg

/-- The `forEach` loop of `ChartConfigManager.notifyListeners`: each listener
is invoked in order, each inside its own `try`/`catch`, so iteration continues
past a throwing listener.  The result is the invocation record, one entry per
listener in registration order: event name, payload, and the logged error
message if that listener threw. -/
def runListeners (ls : List Listener) (e : String) (d : JVal) :
    List (String × JVal × Option String) :=
  match ls with
  | [] => []
  | l :: rest => (e, d, invokeListener l e d) :: runListeners rest e d

/-- The observable state of a `ChartConfigManager` instance together with its
browser environment: the current in-memory config, the registered listeners in
registration order, the parsed content of the `abilityChartConfig` local
storage key, the cumulative log of listener invocations, and the cumulative
log of `console.warn` messages. -/
structure Manager where
  config : JVal
  listeners : List Listener
  storage : Option JVal
  calls : List (String × JVal × Option String)
  warnings : List String

/-- `ChartConfigManager.notifyListeners(event, data)` as a state update:
append the fan-out's invocation record to the log. -/
def notifyAll (m : Manager) (e : String) (d : JVal) : Manager :=
  { m with calls := m.calls ++ runListeners m.listeners e d }

/-- `ChartConfigManager.saveConfig()`: write the current config to local
storage (`setItem` modelled as succeeding; the stored JSON string is modelled
by the value itself), then notify listeners with `"configSaved"`. -/
def saveConfig (m : Manager) : Manager :=
  notifyAll { m with storage := some m.config } "configSaved" m.config

/-- `ChartConfigManager.getConfig()`: a deep copy of the current config — the
identity on pure values. -/
def getConfig (m : Manager) : JVal :=
  m.config

/-- `ChartConfigManager.updateConfig(newConfig)`: merge, save, notify
`"configUpdated"` with the merged config. -/
def updateConfig (m : Manager) (newConfig : JVal) : Manager :=
  let m1 := { m with config := mergeConfig m.config newConfig }
  notifyAll (saveConfig m1) "configUpdated" m1.config

/-- `ChartConfigManager.resetConfig()`: restore a deep copy of the compiled-in
defaults, save, notify `"configReset"`. -/
def resetConfig (m : Manager) : Manager :=
  let m1 := { m with config := DEFAULT_CHART_CONFIG }
  notifyAll (saveConfig m1) "configReset" m1.config

/-- The property names an object literal (or a `JSON.parse` result) inherits
from `Object.prototype`, in the order the specification defines them.  Each is
bound to a truthy value — a built-in function, or for `__proto__` the
`Object.prototype` object itself — none of which has any own enumerable
property, so a `for...in` loop over it visits nothing. -/
def protoProps : List String :=
  ["constructor", "hasOwnProperty", "isPrototypeOf", "propertyIsEnumerable",
   "toLocaleString", "toString", "valueOf", "__proto__",
   "__defineGetter__", "__defineSetter__", "__lookupGetter__",
   "__lookupSetter__"]

/-- `ChartConfigManager.applyTheme(themeName)`: the read
`this.config.themes[themeName]` first finds an own key of `config.themes` and
otherwise walks the prototype chain.  An own truthy theme is merged into the
current config, saved, and `"themeApplied"` notified with the payload object
`{ theme: themeName, config: this.config }`.  A name that is no own key but an
inherited member of `Object.prototype` (`toString`, `constructor`,
`__proto__`, …) yields a truthy value with no own enumerable properties, so
the merge leaves the config unchanged (a fresh deep copy) — and the code still
saves and notifies.  Any other name reads `undefined`: nothing happens, and in
particular no console warning is emitted.  (A `themes` slot that is not an
object has no themes to find: a primitive receiver boxes and reads
`undefined` from the box, which is modelled; reading on `null` would throw
and is outside the modelled envelope.) -/
def applyTheme (m : Manager) (themeName : String) : Manager :=
  match jget m.config "themes" with
  | some ts =>
    match jget ts themeName with
    | some theme =>
      if truthy theme then
        let m1 := { m with config := mergeConfig m.config theme }
        notifyAll (saveConfig m1) "themeApplied"
          (.obj [("theme", .str themeName), ("config", m1.config)])
      else m
    | none =>
      match ts with
      | .obj _ =>
        if themeName ∈ protoProps then
          let m1 := m
          notifyAll (saveConfig m1) "themeApplied"
            (.obj [("theme", .str themeName), ("config", m1.config)])
        else m
      | _ => m
  | none => m

/-- `ChartConfigManager.importConfig(configJson)`: `JSON.parse` is modelled by
its result (`none` = the parse threw); a successful parse feeds
`updateConfig` and returns `true`, a failed one is caught, logged, and
returns `false`. -/
def importConfig (m : Manager) (parsed : Option JVal) : Manager × Bool :=
  match parsed with
  | some v => (updateConfig m v, true)
  | none => (m, false)

/-- `ChartConfigManager.addListener(listener)`: push onto the registry. -/
def addListener (m : Manager) (l : Listener) : Manager :=
  { m with listeners := m.listeners ++ [l] }

/-- `ChartConfigManager.loadConfig()`: `none` = no stored item (use a deep
copy of the defaults), `some none` = stored item whose `JSON.parse` throws
(caught: `console.warn`, use the defaults), `some (some v)` = stored item
parsing to `v` (merge it over the defaults).  Returns the config together with
any warning emitted. -/
def loadConfig : Option (Option JVal) → JVal × List String
  | none => (DEFAULT_CHART_CONFIG, [])
  | some none => (DEFAULT_CHART_CONFIG, ["load config failed, using defaults"])
  | some (some v) => (mergeConfig DEFAULT_CHART_CONFIG v, [])

/-- A mutating operation against the manager, for quantifying over prior
mutation histories. -/
inductive MutOp where
  | update (p : JVal)
  | theme (name : String)
  | importCfg (parsed : Option JVal)

/-- Apply one mutating operation. -/
def applyMutOp (m : Manager) : MutOp → Manager
  | .update p => updateConfig m p
  | .theme n => applyTheme m n
  | .importCfg j => (importConfig m j).1

/-- Apply a sequence of mutating operations in order. -/
def applyMutOps (m : Manager) (ops : List MutOp) : Manager :=
  ops.foldl applyMutOp m

/-- Axis angle of spoke `i` of `n` in the radar chart
(`(index * 2 * Math.PI) / abilities.length - Math.PI / 2`, shared by
`drawGrid`, `drawAxes`, `drawData`, `drawDataPoints`, `detectHover`). -/
noncomputable def axisAngle (n i : ℕ) : ℝ :=
  (i : ℝ) * (2 * Real.pi) / (n : ℝ) - Real.pi / 2

/-- One radar axis datum (`{ name, value, description }`); the description
plays no geometric role. -/
structure Ability where
  name : String
  value : Int

/-- The fixed default value array zipped against the configured labels. -/
def defaultValues : List Int := [92, 88, 85, 90, 95, 82]

/-- JavaScript `x || d` for a possibly-undefined number: `undefined` and the
falsy number `0` both fall back to the default. -/
def jsOrNum (x : Option Int) (d : Int) : Int :=
  match x with
  | some v => if v == 0 then d else v
  | none => d

/-- `config.labels.map((label, index) => ({ name: label, value:
defaultValues[index] || 80, ... }))` building the `abilities` array. -/
def mkAbilities (labels : List String) : List Ability :=
  ((List.range labels.length).zip labels).map
    (fun p => { name := p.2, value := jsOrNum (defaultValues.get? p.1) 80 })

/-- The axis angles `drawAxes` draws, one spoke per entry of `abilities`, in
`forEach` order. -/
noncomputable def drawAxesAngles (abilities : List Ability) : List ℝ :=
  (List.range abilities.length).map (fun i => axisAngle abilities.length i)

/-- The renderer's animation state: the persistent `animationProgress` and
`lastTime` variables and the `isAnimating` flag.  (Inside one frame the code
temporarily swaps `animationProgress` for its eased value while drawing and
restores it before scheduling the next frame; the persistent value is what is
modelled.) -/
structure AnimState where
  animationProgress : ℚ
  lastTime : ℚ
  isAnimating : Bool

/-- `const animationSpeed = 1 / (duration * 60 / 1000)` of `startAnimation`. -/
def animationSpeed (duration : ℚ) : ℚ :=
  1 / (duration * 60 / 1000)

/-- The 16.67 ms frame-rate limit of the `animate` callback. -/
def frameThreshold : ℚ := 1667 / 100

/-- One invocation of the `animate(currentTime)` callback in `startAnimation`:
frames closer than 16.67 ms to the last processed one are skipped (nothing is
updated, another frame is requested); otherwise the progress advances by
`animationSpeed * (deltaTime / 16.67)` and is clamped to exactly 1, at which
point `isAnimating` is cleared and no further frame is requested. -/
def animateFrame (speed : ℚ) (s : AnimState) (currentTime : ℚ) : AnimState :=
  let deltaTime := currentTime - s.lastTime
  if deltaTime < frameThreshold then s
  else
    let p := s.animationProgress + speed * (deltaTime / frameThreshold)
    if 1 ≤ p then
      { animationProgress := 1, lastTime := currentTime, isAnimating := false }
    else
      { animationProgress := p, lastTime := currentTime,
        isAnimating := s.isAnimating }

/-- A run of successive animation-frame callbacks at the given timestamps. -/
def runFrames (speed : ℚ) (s : AnimState) (times : List ℚ) : AnimState :=
  times.foldl (animateFrame speed) s

/-- The `easeOutCubic` easing curve. -/
def easeOutCubic (t : ℚ) : ℚ := 1 - (1 - t) ^ 3

/-- A point in canvas coordinates. -/
structure Pt where
  x : ℝ
  y : ℝ

/-- `Math.sqrt(Math.pow(ax - bx, 2) + Math.pow(ay - by, 2))`, the Euclidean
distance `detectHover` computes. -/
noncomputable def edist2d (a b : Pt) : ℝ :=
  Real.sqrt ((a.x - b.x) ^ 2 + (a.y - b.y) ^ 2)

/-- The canvas position of data vertex `i`:
`center + (cos angle, sin angle) * ((value / 100) * radius)` (with the
animation finished, `animationProgress = 1`, as in `detectHover`). -/
noncomputable def vertexPos (cx cy radius : ℝ) (n i : ℕ) (value : ℝ) : Pt :=
  ⟨cx + Real.cos (axisAngle n i) * (value / 100 * radius),
   cy + Real.sin (axisAngle n i) * (value / 100 * radius)⟩

/-- The `abilities.forEach` loop of `detectHover`, threading
`newHoveredIndex`: a vertex within 15 px of the pointer overwrites the
accumulator with its index (a later match wins). -/
noncomputable def hoverFold (mouse : Pt) (cx cy radius : ℝ) (n : ℕ) :
    List (ℕ × ℝ) → Int → Int
  | [], acc => acc
  | (i, v) :: rest, acc =>
    hoverFold mouse cx cy radius n rest
      (if edist2d mouse (vertexPos cx cy radius n i v) ≤ 15 then (i : Int) else acc)

/-- `detectHover`'s hovered-vertex selection: fold the 15 px hit test over all
vertices starting from `-1` (no hover). -/
noncomputable def detectHoverIndex (cx cy radius : ℝ) (values : List ℝ)
    (mouse : Pt) : Int :=
  hoverFold mouse cx cy radius values.length values.enum (-1)

/-! ### Association-list lemmas for the deep merge -/

theorem getKey_cons (k0 : String) (v0 : JVal) (rest : List (String × JVal))
    (k : String) :
    getKey ((k0, v0) :: rest) k = if k0 == k then some v0 else getKey rest k := by
  by_cases h : k0 == k <;> simp [getKey, List.find?, h]

/-- All entries of `fs` whose key is `k`, in order. -/
def entriesAt (fs : List (String × JVal)) (k : String) : List (String × JVal) :=
  fs.filter (fun p => p.1 == k)

theorem getKey_eq_entriesAt (fs : List (String × JVal)) (k : String) :
    getKey fs k = (entriesAt fs k).head?.map Prod.snd := by
  induction fs with
  | nil => rfl
  | cons p rest ih =>
      obtain ⟨k0, v0⟩ := p
      by_cases h : k0 == k
      · simp [getKey_cons, entriesAt, List.filter_cons, h]
      · simp only [getKey_cons, entriesAt, List.filter_cons, h, if_neg,
          Bool.false_eq_true, ite_false]
        exact ih

theorem entriesAt_any (fs : List (String × JVal)) (k : String) :
    fs.any (fun p => p.1 == k) = true ↔ entriesAt fs k ≠ [] := by
  simp only [entriesAt, ne_eq, List.filter_eq_nil_iff, List.any_eq_true]
  push_neg
  constructor
  · rintro ⟨p, hp, hpk⟩
    exact ⟨p, hp, by simpa using hpk⟩
  · rintro ⟨p, hp, hpk⟩
    exact ⟨p, hp, by simpa using hpk⟩

theorem filter_map_replace_ne (t : List (String × JVal)) (k k' : String)
    (v : JVal) (h : k' ≠ k) :
    (t.map (fun p => if p.1 == k then (k, v) else p)).filter
        (fun p => p.1 == k') =
      t.filter (fun p => p.1 == k') := by
  induction t with
  | nil => rfl
  | cons p rest ih =>
      obtain ⟨k0, v0⟩ := p
      simp only [List.map_cons, List.filter_cons]
      by_cases hk0 : k0 = k
      · subst hk0
        simp [Ne.symm h]
        simpa using ih
      · by_cases hk' : k0 = k'
        · subst hk'
          simp [hk0]
          simpa using ih
        · simp [hk0, hk']
          simpa using ih

theorem entriesAt_setKey_ne (t : List (String × JVal)) (k k' : String)
    (v : JVal) (h : k' ≠ k) :
    entriesAt (setKey t k v) k' = entriesAt t k' := by
  unfold setKey entriesAt
  by_cases ha : t.any (fun p => p.1 == k) = true
  · rw [if_pos ha]
    exact filter_map_replace_ne t k k' v h
  · rw [if_neg ha, List.filter_append]
    have h1 : ((k, v).1 == k') = false := by simp [Ne.symm h]
    simp [h1]

theorem entriesAt_setKey_self_all (t : List (String × JVal)) (k : String)
    (v : JVal) : ∀ e ∈ entriesAt (setKey t k v) k, e = (k, v) := by
  unfold setKey entriesAt
  by_cases ha : t.any (fun p => p.1 == k) = true
  · rw [if_pos ha]
    intro e he
    rw [List.mem_filter] at he
    obtain ⟨hmem, hek⟩ := he
    rw [List.mem_map] at hmem
    obtain ⟨p, _, hfp⟩ := hmem
    by_cases hpk : p.1 == k
    · rw [← hfp, if_pos hpk]
    · rw [← hfp, if_neg hpk] at hek ⊢
      exact absurd hek hpk
  · rw [if_neg ha, List.filter_append]
    intro e he
    rw [List.mem_append] at he
    rcases he with he | he
    · exfalso
      rw [List.mem_filter] at he
      exact ha (List.any_eq_true.2 ⟨e, he.1, he.2⟩)
    · have h1 : ((k, v).1 == k) = true := by simp
      simp only [List.filter_cons, h1, if_true, List.filter_nil] at he
      simpa using he

theorem entriesAt_setKey_self_ne_nil (t : List (String × JVal)) (k : String)
    (v : JVal) : entriesAt (setKey t k v) k ≠ [] := by
  unfold setKey entriesAt
  by_cases ha : t.any (fun p => p.1 == k) = true
  · rw [if_pos ha]
    rw [List.any_eq_true] at ha
    obtain ⟨p, hp, hpk⟩ := ha
    have hmem : (k, v) ∈
        (t.map (fun p => if p.1 == k then (k, v) else p)).filter
          (fun p => p.1 == k) := by
      rw [List.mem_filter]
      refine ⟨List.mem_map.2 ⟨p, hp, ?_⟩, by simp⟩
      rw [if_pos hpk]
    exact fun hh => by rw [hh] at hmem; exact absurd hmem (List.not_mem_nil _)
  · rw [if_neg ha, List.filter_append]
    have h1 : ((k, v).1 == k) = true := by simp
    simp [List.filter_cons, h1]

theorem map_replace_eq_self (t : List (String × JVal)) (k : String) (v : JVal)
    (hall : ∀ e ∈ entriesAt t k, e = (k, v)) :
    t.map (fun p => if p.1 == k then (k, v) else p) = t := by
  induction t with
  | nil => rfl
  | cons p rest ih =>
      have hrest : ∀ e ∈ entriesAt rest k, e = (k, v) := by
        intro e he
        rw [entriesAt, List.mem_filter] at he
        exact hall e (by
          rw [entriesAt, List.mem_filter]
          exact ⟨List.mem_cons_of_mem _ he.1, he.2⟩)
      simp only [List.map_cons, ih hrest]
      by_cases hpk : p.1 == k
      · have hp : p ∈ entriesAt (p :: rest) k := by
          rw [entriesAt, List.mem_filter]
          exact ⟨List.mem_cons_self _ _, hpk⟩
        rw [if_pos hpk, ← hall p hp]
      · rw [if_neg hpk]

theorem setKey_eq_self (t : List (String × JVal)) (k : String) (v : JVal)
    (hall : ∀ e ∈ entriesAt t k, e = (k, v))
    (hne : entriesAt t k ≠ []) : setKey t k v = t := by
  have ha : t.any (fun p => p.1 == k) = true := (entriesAt_any t k).2 hne
  unfold setKey
  rw [if_pos ha]
  exact map_replace_eq_self t k v hall

theorem getKey_setKey_self (t : List (String × JVal)) (k : String) (v : JVal) :
    getKey (setKey t k v) k = some v := by
  rw [getKey_eq_entriesAt]
  cases hh : entriesAt (setKey t k v) k with
  | nil => exact absurd hh (entriesAt_setKey_self_ne_nil t k v)
  | cons e es =>
      have he : e = (k, v) :=
        entriesAt_setKey_self_all t k v e (by rw [hh]; exact List.mem_cons_self _ _)
      simp [he]

theorem getKey_setKey_ne (t : List (String × JVal)) (k k' : String) (v : JVal)
    (h : k' ≠ k) : getKey (setKey t k v) k' = getKey t k' := by
  rw [getKey_eq_entriesAt, getKey_eq_entriesAt, entriesAt_setKey_ne t k k' v h]

theorem getKey_eq_none_iff (fs : List (String × JVal)) (k : String) :
    getKey fs k = none ↔ ∀ p ∈ fs, p.1 ≠ k := by
  unfold getKey
  cases hf : fs.find? (fun p => p.1 == k) with
  | some p =>
      simp only [reduceCtorEq, false_iff, not_forall]
      exact ⟨p, List.mem_of_find?_eq_some hf,
        by simp [show p.1 = k by simpa using List.find?_some hf]⟩
  | none =>
      simp only [true_iff]
      rw [List.find?_eq_none] at hf
      intro p hp
      simpa using hf p hp

theorem mergeFields_nil (t : List (String × JVal)) : mergeFields t [] = t := by
  simp [mergeFields]

theorem mergeFields_cons (t : List (String × JVal)) (k : String) (v : JVal)
    (rest : List (String × JVal)) :
    mergeFields t ((k, v) :: rest) =
      mergeFields (setKey t k (mergeVal (getKey t k) v)) rest := by
  simp [mergeFields]

theorem entriesAt_mergeFields_frame (s : List (String × JVal)) (k : String)
    (hs : ∀ p ∈ s, p.1 ≠ k) :
    ∀ t, entriesAt (mergeFields t s) k = entriesAt t k := by
  induction s with
  | nil => intro t; rw [mergeFields_nil]
  | cons p rest ih =>
      intro t
      obtain ⟨k0, v0⟩ := p
      rw [mergeFields_cons]
      have hk0 : k ≠ k0 := fun hh => (hs (k0, v0) (List.mem_cons_self _ _)) (by simp [hh])
      rw [ih (fun p hp => hs p (List.mem_cons_of_mem _ hp)),
        entriesAt_setKey_ne _ _ _ _ hk0]

theorem getKey_mergeFields_frame (s : List (String × JVal)) (k : String)
    (hs : ∀ p ∈ s, p.1 ≠ k) (t : List (String × JVal)) :
    getKey (mergeFields t s) k = getKey t k := by
  rw [getKey_eq_entriesAt, getKey_eq_entriesAt,
    entriesAt_mergeFields_frame s k hs t]

theorem nodupKeys_cons (k0 : String) (v0 : JVal) (rest : List (String × JVal))
    (h : nodupKeys ((k0, v0) :: rest) = true) :
    (∀ p ∈ rest, p.1 ≠ k0) ∧ nodupKeys rest = true := by
  unfold nodupKeys at h
  rw [Bool.and_eq_true, Bool.not_eq_true', List.any_eq_false] at h
  exact ⟨fun p hp => by simpa using h.1 p hp, h.2⟩

theorem getKey_mergeFields_of_src_some (s : List (String × JVal)) :
    nodupKeys s = true →
    ∀ t k v, getKey s k = some v →
      getKey (mergeFields t s) k = some (mergeVal (getKey t k) v) := by
  induction s with
  | nil => intro _ t k v h; simp [getKey] at h
  | cons p rest ih =>
      obtain ⟨k0, v0⟩ := p
      intro hnd t k v h
      obtain ⟨hany, hnd'⟩ := nodupKeys_cons k0 v0 rest hnd
      rw [getKey_cons] at h
      rw [mergeFields_cons]
      by_cases hk : k0 = k
      · subst hk
        rw [if_pos (by simp)] at h
        injection h with h
        subst h
        rw [getKey_mergeFields_frame rest k0 hany, getKey_setKey_self]
      · rw [if_neg (by simp [hk])] at h
        rw [ih hnd' _ k v h, getKey_setKey_ne _ _ _ _ (Ne.symm hk)]

theorem getKey_mergeFields_of_src_none (s : List (String × JVal))
    (t : List (String × JVal)) (k : String) (h : getKey s k = none) :
    getKey (mergeFields t s) k = getKey t k :=
  getKey_mergeFields_frame s k
    (fun p hp => (getKey_eq_none_iff s k).1 h p hp) t

theorem srcWFFields_mem (s : List (String × JVal)) (hs : srcWFFields s = true) :
    ∀ p ∈ s, srcWF p.2 = true := by
  induction s with
  | nil => intro p hp; simp at hp
  | cons q rest ih =>
      obtain ⟨k0, v0⟩ := q
      unfold srcWFFields at hs
      rw [Bool.and_eq_true] at hs
      intro p hp
      rcases List.mem_cons.1 hp with hp | hp
      · subst hp; exact hs.1
      · exact ih hs.2 p hp

mutual

theorem mergeVal_idem : ∀ (v : JVal), srcWF v = true →
    ∀ cur, mergeVal (some (mergeVal cur v)) v = mergeVal cur v
  | .null, _, cur => by simp [mergeVal]
  | .bool b, _, cur => by simp [mergeVal]
  | .num n, _, cur => by simp [mergeVal]
  | .str s, _, cur => by simp [mergeVal]
  | .arr xs, _, cur => by simp [mergeVal]
  | .obj fs, hwf, cur => by
      have hnd : nodupKeys fs = true := by
        unfold srcWF at hwf; rw [Bool.and_eq_true] at hwf; exact hwf.1
      have hwfs : srcWFFields fs = true := by
        unfold srcWF at hwf; rw [Bool.and_eq_true] at hwf; exact hwf.2
      cases cur with
      | none =>
          simp only [mergeVal, truthy]
          exact congrArg JVal.obj (mergeFields_idem fs hnd hwfs [])
      | some c =>
          cases c with
          | null =>
              simp only [mergeVal, truthy, Bool.false_eq_true, if_false, if_true]
              exact congrArg JVal.obj (mergeFields_idem fs hnd hwfs [])
          | bool b =>
              cases b with
              | false =>
                  simp only [mergeVal, truthy, Bool.false_eq_true, if_false, if_true]
                  exact congrArg JVal.obj (mergeFields_idem fs hnd hwfs [])
              | true => simp [mergeVal, truthy]
          | num n =>
              by_cases hn : n = 0
              · subst hn
                simp only [mergeVal, truthy, bne_self_eq_false,
                  Bool.false_eq_true, if_false, if_true]
                exact congrArg JVal.obj (mergeFields_idem fs hnd hwfs [])
              · simp [mergeVal, truthy, hn]
          | str s =>
              by_cases hs : s = ""
              · subst hs
                simp only [mergeVal, truthy, bne_self_eq_false,
                  Bool.false_eq_true, if_false, if_true]
                exact congrArg JVal.obj (mergeFields_idem fs hnd hwfs [])
              · simp [mergeVal, truthy, hs]
          | arr xs => simp [mergeVal, truthy]
          | obj cfs =>
              simp only [mergeVal, truthy, if_true]
              exact congrArg JVal.obj (mergeFields_idem fs hnd hwfs cfs)

theorem mergeFields_idem : ∀ (s : List (String × JVal)), nodupKeys s = true →
    srcWFFields s = true →
    ∀ t, mergeFields (mergeFields t s) s = mergeFields t s
  | [], _, _, t => by rw [mergeFields_nil]
  | (k, v) :: rest, hnd, hwf, t => by
      obtain ⟨hany, hnd'⟩ := nodupKeys_cons k v rest hnd
      have hv : srcWF v = true := by
        unfold srcWFFields at hwf; rw [Bool.and_eq_true] at hwf; exact hwf.1
      have hwr : srcWFFields rest = true := by
        unfold srcWFFields at hwf; rw [Bool.and_eq_true] at hwf; exact hwf.2
      rw [mergeFields_cons t k v rest]
      rw [mergeFields_cons (mergeFields (setKey t k (mergeVal (getKey t k) v)) rest) k v rest]
      have hgu : getKey (mergeFields (setKey t k (mergeVal (getKey t k) v)) rest) k
          = some (mergeVal (getKey t k) v) := by
        rw [getKey_mergeFields_frame rest k hany, getKey_setKey_self]
      rw [hgu, mergeVal_idem v hv (getKey t k)]
      have hset : setKey (mergeFields (setKey t k (mergeVal (getKey t k) v)) rest) k
            (mergeVal (getKey t k) v)
          = mergeFields (setKey t k (mergeVal (getKey t k) v)) rest := by
        apply setKey_eq_self
        · intro e he
          rw [entriesAt_mergeFields_frame rest k hany] at he
          exact entriesAt_setKey_self_all t k _ e he
        · rw [entriesAt_mergeFields_frame rest k hany]
          exact entriesAt_setKey_self_ne_nil t k _
      rw [hset]
      exact mergeFields_idem rest hnd' hwr (setKey t k (mergeVal (getKey t k) v))

end

/-! ### Listener fan-out lemmas -/

theorem runListeners_length (ls : List Listener) (e : String) (d : JVal) :
    (runListeners ls e d).length = ls.length := by
  induction ls with
  | nil => rfl
  | cons l rest ih => simp [runListeners, ih]

theorem runListeners_get? (ls : List Listener) (e : String) (d : JVal) :
    ∀ i l, ls.get? i = some l →
      (runListeners ls e d).get? i = some (e, d, invokeListener l e d) := by
  induction ls with
  | nil => intro i l h; simp at h
  | cons l0 rest ih =>
      intro i l h
      cases i with
      | zero =>
          rw [List.get?_cons_zero] at h
          injection h with h
          subst h
          rfl
      | succ n =>
          rw [List.get?_cons_succ] at h
          show (runListeners rest e d).get? n = _
          exact ih n l h

/-! ### Hover-detection lemmas -/

theorem edist2d_self (a : Pt) : edist2d a a = 0 := by
  simp [edist2d]

theorem edist2d_nonneg (a b : Pt) : 0 ≤ edist2d a b :=
  Real.sqrt_nonneg _

theorem edist2d_comm (a b : Pt) : edist2d a b = edist2d b a := by
  unfold edist2d
  ring_nf

theorem edist2d_eq_dist (a b : Pt) :
    edist2d a b = dist (⟨a.x, a.y⟩ : ℂ) (⟨b.x, b.y⟩ : ℂ) := by
  rw [Complex.dist_eq, Complex.abs_apply, Complex.normSq_apply]
  unfold edist2d
  congr 1
  simp [Complex.sub_re, Complex.sub_im]
  ring

theorem edist2d_triangle (a b c : Pt) :
    edist2d a c ≤ edist2d a b + edist2d b c := by
  rw [edist2d_eq_dist, edist2d_eq_dist, edist2d_eq_dist]
  exact dist_triangle _ _ _

theorem hoverFold_stable (mouse : Pt) (cx cy r : ℝ) (n : ℕ) :
    ∀ (l : List (ℕ × ℝ)) (acc : Int),
      (∀ p ∈ l,
        edist2d mouse (vertexPos cx cy r n p.1 p.2) ≤ 15 → (p.1 : Int) = acc) →
      hoverFold mouse cx cy r n l acc = acc := by
  intro l
  induction l with
  | nil => intro acc _; rfl
  | cons p rest ih =>
      intro acc hl
      obtain ⟨i, v⟩ := p
      show hoverFold mouse cx cy r n rest _ = acc
      by_cases hhit : edist2d mouse (vertexPos cx cy r n i v) ≤ 15
      · rw [if_pos hhit]
        have hacc : (i : Int) = acc := hl (i, v) (List.mem_cons_self _ _) hhit
        rw [hacc]
        exact ih acc (fun p hp => hl p (List.mem_cons_of_mem _ hp))
      · rw [if_neg hhit]
        exact ih acc (fun p hp => hl p (List.mem_cons_of_mem _ hp))

theorem hoverFold_miss (mouse : Pt) (cx cy r : ℝ) (n : ℕ) :
    ∀ (l : List (ℕ × ℝ)) (acc : Int),
      (∀ p ∈ l, ¬ edist2d mouse (vertexPos cx cy r n p.1 p.2) ≤ 15) →
      hoverFold mouse cx cy r n l acc = acc := by
  intro l acc hl
  exact hoverFold_stable mouse cx cy r n l acc
    (fun p hp hhit => absurd hhit (hl p hp))

theorem hoverFold_unique (mouse : Pt) (cx cy r : ℝ) (n : ℕ) :
    ∀ (l : List (ℕ × ℝ)) (acc : Int) (i : ℕ) (v : ℝ),
      (i, v) ∈ l →
      edist2d mouse (vertexPos cx cy r n i v) ≤ 15 →
      (∀ p ∈ l, p.1 ≠ i → ¬ edist2d mouse (vertexPos cx cy r n p.1 p.2) ≤ 15) →
      (∀ p ∈ l, p.1 = i → p.2 = v) →
      hoverFold mouse cx cy r n l acc = (i : Int) := by
  intro l
  induction l with
  | nil => intro acc i v hmem; simp at hmem
  | cons p rest ih =>
      intro acc i v hmem hhit hmiss hval
      obtain ⟨j, w⟩ := p
      show hoverFold mouse cx cy r n rest _ = (i : Int)
      by_cases hji : j = i
      · subst hji
        have hw : w = v := hval (j, w) (List.mem_cons_self _ _) rfl
        subst hw
        rw [if_pos hhit]
        exact hoverFold_stable mouse cx cy r n rest (j : Int) (fun p hp hph => by
          by_cases hpj : p.1 = j
          · exact congrArg Int.ofNat hpj
          · exact absurd hph (hmiss p (List.mem_cons_of_mem _ hp) hpj))
      · have hmem' : (i, v) ∈ rest := by
          rcases List.mem_cons.1 hmem with hh | hh
          · exact absurd (congrArg Prod.fst hh).symm hji
          · exact hh
        have hnj : ¬ edist2d mouse (vertexPos cx cy r n j w) ≤ 15 :=
          hmiss (j, w) (List.mem_cons_self _ _) hji
        rw [if_neg hnj]
        exact ih acc i v hmem' hhit
          (fun p hp => hmiss p (List.mem_cons_of_mem _ hp))
          (fun p hp => hval p (List.mem_cons_of_mem _ hp))

/-! ### Manager operation destructors -/

theorem updateConfig_destruct (m : Manager) (p : JVal) :
    updateConfig m p =
      { config := mergeConfig m.config p,
        listeners := m.listeners,
        storage := some (mergeConfig m.config p),
        calls := m.calls
          ++ runListeners m.listeners "configSaved" (mergeConfig m.config p)
          ++ runListeners m.listeners "configUpdated" (mergeConfig m.config p),
        warnings := m.warnings } := rfl

theorem resetConfig_destruct (m : Manager) :
    resetConfig m =
      { config := DEFAULT_CHART_CONFIG,
        listeners := m.listeners,
        storage := some DEFAULT_CHART_CONFIG,
        calls := m.calls
          ++ runListeners m.listeners "configSaved" DEFAULT_CHART_CONFIG
          ++ runListeners m.listeners "configReset" DEFAULT_CHART_CONFIG,
        warnings := m.warnings } := rfl

theorem applyTheme_noThemes (m : Manager) (name : String)
    (h : jget m.config "themes" = none) :
    applyTheme m name = m := by
  unfold applyTheme
  rw [h]

theorem get?_append_offset {α : Type} (A C : List α) (i : ℕ) :
    (A ++ C).get? (A.length + i) = C.get? i := by
  rw [List.get?_eq_getElem?, List.get?_eq_getElem?,
    List.getElem?_append_right (by omega)]
  congr 1
  omega

theorem updateConfig_config (m : Manager) (p : JVal) :
    (updateConfig m p).config = mergeConfig m.config p := rfl

/-- The partial config of the frame-preservation scenario,
`{radar:{levels:3}}`. -/
def radarLevels3Fields : List (String × JVal) :=
  [("radar", .obj [("levels", .num 3)])]

def radarLevels3 : JVal := .obj radarLevels3Fields

/-- A fixed listener for witness scenarios. -/
def mgrWListener : Listener := fun _ _ => Except.ok ()

/-- Field list of a small config used in witness scenarios. -/
def mgrWFields : List (String × JVal) :=
  [("chart", .obj [("width", .num 400)]),
   ("radar", .obj [("levels", .num 5), ("maxValue", .num 100)])]

/-- A small manager state used in witness scenarios. -/
def mgrW : Manager :=
  { config := .obj mgrWFields,
    listeners := [mgrWListener],
    storage := none,
    calls := [],
    warnings := [] }

/-- C3: the deep merge preserves untouched keys — after
`updateConfig({radar:{levels:3}})`, every top-level key other than `radar` is
unchanged (in particular `chart`, hence `chart.width`), and inside `radar`
every key other than `levels` keeps its previous value. -/
theorem updateConfig_untouched (m : Manager) (k : String) :
    (k ≠ "radar" →
      jget (updateConfig m radarLevels3).config k = jget m.config k) ∧
    (∀ rfs, jget m.config "radar" = some (.obj rfs) → k ≠ "levels" →
      (jget (updateConfig m radarLevels3).config "radar").bind
          (fun r => jget r k) =
        (jget m.config "radar").bind (fun r => jget r k)) ∧
    (jget (updateConfig m radarLevels3).config "chart").bind
        (fun cv => jget cv "width") =
      (jget m.config "chart").bind (fun cv => jget cv "width") := by
  have hframe : ∀ k' : String, k' ≠ "radar" → ∀ tf,
      getKey (mergeFields tf radarLevels3Fields) k' = getKey tf k' := by
    intro k' hk' tf
    apply getKey_mergeFields_frame
    intro q hq
    rcases List.mem_cons.1 hq with hh | hh
    · rw [hh]; exact fun hcc => hk' hcc.symm
    · simp [radarLevels3Fields] at hh
  rw [updateConfig_config]
  cases hc : m.config with
  | obj tf =>
      refine ⟨?_, ?_, ?_⟩
      · intro hk
        simp only [hc, radarLevels3, mergeConfig, srcFields, jget]
        exact hframe k hk tf
      · intro rfs hr hk
        have hr' : getKey tf "radar" = some (.obj rfs) := by
          simpa [jget] using hr
        simp only [hc, radarLevels3, mergeConfig, srcFields, jget]
        have hm2 : getKey (mergeFields tf radarLevels3Fields) "radar" =
            some (mergeVal (getKey tf "radar") (.obj [("levels", .num 3)])) :=
          getKey_mergeFields_of_src_some radarLevels3Fields (by decide) tf
            "radar" (.obj [("levels", .num 3)])
            (by simp [radarLevels3Fields, getKey_cons])
        rw [hm2, hr']
        have hmv : mergeVal (some (JVal.obj rfs)) (.obj [("levels", .num 3)])
            = .obj (mergeFields rfs [("levels", .num 3)]) := by
          simp [mergeVal, truthy]
        rw [hmv, Option.some_bind, Option.some_bind]
        simp only [jget]
        apply getKey_mergeFields_frame
        intro q hq
        rcases List.mem_cons.1 hq with hh | hh
        · rw [hh]; exact fun hcc => hk hcc.symm
        · simp at hh
      · simp only [hc, radarLevels3, mergeConfig, srcFields, jget]
        rw [hframe "chart" (by decide) tf]
  | null =>
      exact ⟨fun _ => rfl, fun rfs hr => by simp [jget] at hr, rfl⟩
  | bool b =>
      exact ⟨fun _ => rfl, fun rfs hr => by simp [jget] at hr, rfl⟩
  | num n =>
      exact ⟨fun _ => rfl, fun rfs hr => by simp [jget] at hr, rfl⟩
  | str s =>
      exact ⟨fun _ => rfl, fun rfs hr => by simp [jget] at hr, rfl⟩
  | arr xs =>
      exact ⟨fun _ => rfl, fun rfs hr => by simp [jget] at hr, rfl⟩

theorem updateConfig_untouched_witness :
    jget (updateConfig mgrW radarLevels3).config "maxValue" =
      jget mgrW.config "maxValue" ∧
    (jget (updateConfig mgrW radarLevels3).config "radar").bind
        (fun r => jget r "maxValue") =
      (jget mgrW.config "radar").bind (fun r => jget r "maxValue") ∧
    (jget (updateConfig mgrW radarLevels3).config "chart").bind
        (fun cv => jget cv "width") =
      (jget mgrW.config "chart").bind (fun cv => jget cv "width") :=
  ⟨(updateConfig_untouched mgrW "maxValue").1 (by decide),
   (updateConfig_untouched mgrW "maxValue").2.1
     [("levels", .num 5), ("maxValue", .num 100)] rfl (by decide),
   (updateConfig_untouched mgrW "maxValue").2.2⟩

theorem calls_append_get? (base : List (String × JVal × Option String))
    (ls : List Listener) (e1 e2 : String) (d1 d2 : JVal) (i : ℕ) (l : Listener)
    (hl : ls.get? i = some l) :
    (base ++ runListeners ls e1 d1 ++ runListeners ls e2 d2).get?
        (base.length + ls.length + i) =
      some (e2, d2, invokeListener l e2 d2) := by
  have hlen : (base ++ runListeners ls e1 d1).length = base.length + ls.length := by
    rw [List.length_append, runListeners_length]
  show ((base ++ runListeners ls e1 d1) ++ runListeners ls e2 d2).get?
      (base.length + ls.length + i) = _
  rw [← hlen, get?_append_offset]
  exact runListeners_get? ls e2 d2 i l hl

/-- C4: whatever mutations (`updateConfig`, `applyTheme`, `importConfig`) were
applied before, `resetConfig()` leaves the current config deep-equal to the
compiled-in `DEFAULT_CHART_CONFIG`, persists it, and notifies every
registered listener with event name `"configReset"` carrying the defaults. -/
theorem resetConfig_correct (m0 : Manager) (ops : List MutOp) :
    (resetConfig (applyMutOps m0 ops)).config = DEFAULT_CHART_CONFIG ∧
    (resetConfig (applyMutOps m0 ops)).storage = some DEFAULT_CHART_CONFIG ∧
    (resetConfig (applyMutOps m0 ops)).calls =
      (applyMutOps m0 ops).calls
        ++ runListeners (applyMutOps m0 ops).listeners "configSaved"
            DEFAULT_CHART_CONFIG
        ++ runListeners (applyMutOps m0 ops).listeners "configReset"
            DEFAULT_CHART_CONFIG ∧
    (∀ i l, (applyMutOps m0 ops).listeners.get? i = some l →
      (resetConfig (applyMutOps m0 ops)).calls.get?
          ((applyMutOps m0 ops).calls.length
            + (applyMutOps m0 ops).listeners.length + i) =
        some ("configReset", DEFAULT_CHART_CONFIG,
          invokeListener l "configReset" DEFAULT_CHART_CONFIG)) := by
  refine ⟨rfl, rfl, rfl, ?_⟩
  intro i l hl
  exact calls_append_get? (applyMutOps m0 ops).calls
    (applyMutOps m0 ops).listeners "configSaved" "configReset"
    DEFAULT_CHART_CONFIG DEFAULT_CHART_CONFIG i l hl

theorem resetConfig_correct_witness :
    (resetConfig (applyMutOps mgrW [MutOp.update radarLevels3])).config
        = DEFAULT_CHART_CONFIG ∧
    (resetConfig (applyMutOps mgrW [MutOp.update radarLevels3])).calls.get?
        ((applyMutOps mgrW [MutOp.update radarLevels3]).calls.length
          + (applyMutOps mgrW [MutOp.update radarLevels3]).listeners.length
          + 0) =
      some ("configReset", DEFAULT_CHART_CONFIG,
        invokeListener mgrWListener "configReset" DEFAULT_CHART_CONFIG) :=
  ⟨(resetConfig_correct mgrW [MutOp.update radarLevels3]).1,
   (resetConfig_correct mgrW [MutOp.update radarLevels3]).2.2.2 0
     mgrWListener rfl⟩

/-- C5: `notifyListeners` invokes each registered listener synchronously, in
registration order — the invocation record has exactly one entry per listener,
at that listener's position, carrying that listener's own outcome — and a
listener that throws is caught (its error only logged), so every later
listener in the list is still invoked. -/
theorem notifyListeners_isolated (ls : List Listener) (e : String) (d : JVal) :
    (runListeners ls e d).length = ls.length ∧
    (∀ i l, ls.get? i = some l →
      (runListeners ls e d).get? i = some (e, d, invokeListener l e d)) ∧
    (∀ i j li lj, i < j → ls.get? i = some li → ls.get? j = some lj →
      invokeListener li e d ≠ none →
      (runListeners ls e d).get? j = some (e, d, invokeListener lj e d)) := by
  refine ⟨runListeners_length ls e d, runListeners_get? ls e d, ?_⟩
  intro i j li lj _ _ hj _
  exact runListeners_get? ls e d j lj hj

/-- A listener that always throws, for the witness scenario. -/
def throwingListener : Listener := fun _ _ => Except.error "listener boom"

theorem notifyListeners_isolated_witness :
    (runListeners [throwingListener, mgrWListener] "configUpdated" .null).get? 1
      = some ("configUpdated", .null,
          invokeListener mgrWListener "configUpdated" .null) :=
  (notifyListeners_isolated [throwingListener, mgrWListener]
      "configUpdated" .null).2.2
    0 1 throwingListener mgrWListener (by decide) rfl rfl
    (by simp [invokeListener, throwingListener])

theorem mkAbilities_length (labels : List String) :
    (mkAbilities labels).length = labels.length := by
  simp [mkAbilities]

/-- C7: `drawAxes` draws one spoke per ability (derived one-per-label from
`config.labels`), placing spoke `i` of `n` at angle `i·2π/n − π/2` radians, so
consecutive spokes differ by exactly `2π/n`; with exactly 3 labels exactly 3
spokes are drawn, at `−π/2` (−90°), `π/6` (30°) and `5π/6` (150°). -/
theorem drawAxes_angles (labels : List String) (i : ℕ)
    (hi : i < labels.length) :
    (drawAxesAngles (mkAbilities labels)).length = labels.length ∧
    (drawAxesAngles (mkAbilities labels)).get? i
      = some (axisAngle labels.length i) ∧
    axisAngle labels.length (i + 1) - axisAngle labels.length i
      = 2 * Real.pi / labels.length ∧
    (labels.length = 3 →
      drawAxesAngles (mkAbilities labels)
        = [-(Real.pi / 2), Real.pi / 6, 5 * Real.pi / 6]) := by
  have hlen : (mkAbilities labels).length = labels.length :=
    mkAbilities_length labels
  refine ⟨by simp [drawAxesAngles, hlen], ?_, ?_, ?_⟩
  · unfold drawAxesAngles
    rw [hlen, List.get?_eq_getElem?, List.getElem?_map,
      List.getElem?_range hi]
    rfl
  · have hn : (0:ℝ) < (labels.length : ℝ) := by
      exact_mod_cast Nat.zero_lt_of_lt hi
    unfold axisAngle
    push_cast
    field_simp
    ring
  · intro h3
    have e0 : axisAngle 3 0 = -(Real.pi / 2) := by
      unfold axisAngle; push_cast; ring
    have e1 : axisAngle 3 1 = Real.pi / 6 := by
      unfold axisAngle; push_cast; ring
    have e2 : axisAngle 3 2 = 5 * Real.pi / 6 := by
      unfold axisAngle; push_cast; ring
    unfold drawAxesAngles
    rw [hlen, h3, show List.range 3 = [0, 1, 2] from rfl]
    simp [e0, e1, e2]

theorem drawAxes_angles_witness :
    (drawAxesAngles (mkAbilities ["A", "B", "C"])).length = 3 ∧
    drawAxesAngles (mkAbilities ["A", "B", "C"])
      = [-(Real.pi / 2), Real.pi / 6, 5 * Real.pi / 6] :=
  ⟨(drawAxes_angles ["A", "B", "C"] 0 (by decide)).1,
   (drawAxes_angles ["A", "B", "C"] 0 (by decide)).2.2.2 rfl⟩

theorem animateFrame_step (speed : ℚ) (s : AnimState) (t : ℚ)
    (hsp : 0 ≤ speed) (hp : s.animationProgress ≤ 1) :
    s.animationProgress ≤ (animateFrame speed s t).animationProgress ∧
    (animateFrame speed s t).animationProgress ≤ 1 := by
  unfold animateFrame
  by_cases hdt : t - s.lastTime < frameThreshold
  · rw [if_pos hdt]
    exact ⟨le_refl _, hp⟩
  · rw [if_neg hdt]
    by_cases h1 : 1 ≤ s.animationProgress
        + speed * ((t - s.lastTime) / frameThreshold)
    · rw [if_pos h1]
      exact ⟨hp, le_refl 1⟩
    · rw [if_neg h1]
      have hth : (0:ℚ) < frameThreshold := by norm_num [frameThreshold]
      have hdt' : (0:ℚ) ≤ t - s.lastTime := le_trans hth.le (not_lt.1 hdt)
      have hinc : 0 ≤ speed * ((t - s.lastTime) / frameThreshold) :=
        mul_nonneg hsp (div_nonneg hdt' hth.le)
      exact ⟨le_add_of_nonneg_right hinc, (not_le.1 h1).le⟩

theorem runFrames_cons (speed : ℚ) (s : AnimState) (t : ℚ) (ts : List ℚ) :
    runFrames speed s (t :: ts) = runFrames speed (animateFrame speed s t) ts :=
  rfl

theorem runFrames_bounds (speed : ℚ) (hsp : 0 ≤ speed) :
    ∀ (times : List ℚ) (s : AnimState), s.animationProgress ≤ 1 →
      s.animationProgress ≤ (runFrames speed s times).animationProgress ∧
      (runFrames speed s times).animationProgress ≤ 1 := by
  intro times
  induction times with
  | nil => intro s hp; exact ⟨le_refl _, hp⟩
  | cons t ts ih =>
      intro s hp
      have hstep := animateFrame_step speed s t hsp hp
      have hrec := ih (animateFrame speed s t) hstep.2
      rw [runFrames_cons]
      exact ⟨le_trans hstep.1 hrec.1, hrec.2⟩

/-- C8: with a positive configured animation duration the computed speed is
positive, and the persistent `animationProgress` never decreases across
processed frames, never exceeds 1, is clamped to exactly 1 when it gets
there, and stays 1 from then on. -/
theorem animationProgress_monotone (duration : ℚ) (s : AnimState)
    (t : ℚ) (times : List ℚ) (hd : 0 < duration)
    (hp : s.animationProgress ≤ 1) :
    0 < animationSpeed duration ∧
    s.animationProgress
      ≤ (animateFrame (animationSpeed duration) s t).animationProgress ∧
    (animateFrame (animationSpeed duration) s t).animationProgress ≤ 1 ∧
    s.animationProgress
      ≤ (runFrames (animationSpeed duration) s times).animationProgress ∧
    (runFrames (animationSpeed duration) s times).animationProgress ≤ 1 ∧
    (s.animationProgress = 1 →
      (runFrames (animationSpeed duration) s times).animationProgress = 1) := by
  have hsp : 0 < animationSpeed duration := by
    unfold animationSpeed
    positivity
  have hstep := animateFrame_step (animationSpeed duration) s t hsp.le hp
  have hrun := runFrames_bounds (animationSpeed duration) hsp.le times s hp
  refine ⟨hsp, hstep.1, hstep.2, hrun.1, hrun.2, ?_⟩
  intro h1
  have hlo := hrun.1
  rw [h1] at hlo
  exact le_antisymm hrun.2 hlo

theorem animationProgress_monotone_witness :
    0 < animationSpeed 1000 ∧
    (runFrames (animationSpeed 1000)
      ⟨0, 0, true⟩ [20, 40]).animationProgress ≤ 1 :=
  ⟨(animationProgress_monotone 1000 ⟨0, 0, true⟩ 20 [20, 40]
      (by decide) (by decide)).1,
   (animationProgress_monotone 1000 ⟨0, 0, true⟩ 20 [20, 40]
      (by decide) (by decide)).2.2.2.2.1⟩

/-- C9: when the radar-chart vertices are pairwise more than 30 px apart, a
pointer within 15 px (Euclidean distance) of vertex `i` makes `detectHover`
select exactly index `i`, and a pointer farther than 15 px from every vertex
selects no vertex (the hovered index becomes −1). -/
theorem detectHover_correct (cx cy radius : ℝ) (values : List ℝ) (mouse : Pt)
    (hsep : ∀ i j vi vj, values.get? i = some vi → values.get? j = some vj →
      i ≠ j →
      30 < edist2d (vertexPos cx cy radius values.length i vi)
        (vertexPos cx cy radius values.length j vj)) :
    (∀ i v, values.get? i = some v →
      edist2d mouse (vertexPos cx cy radius values.length i v) ≤ 15 →
      detectHoverIndex cx cy radius values mouse = (i : Int)) ∧
    ((∀ i v, values.get? i = some v →
        ¬ edist2d mouse (vertexPos cx cy radius values.length i v) ≤ 15) →
      detectHoverIndex cx cy radius values mouse = -1) := by
  have hmem : ∀ p : ℕ × ℝ, p ∈ values.enum → values.get? p.1 = some p.2 := by
    intro p hp
    rw [List.get?_eq_getElem?]
    exact List.mem_enum_iff_getElem?.1 hp
  constructor
  · intro i v hv hhit
    unfold detectHoverIndex
    apply hoverFold_unique mouse cx cy radius values.length values.enum (-1) i v
    · exact List.mk_mem_enum_iff_getElem?.2
        (by rw [← List.get?_eq_getElem?]; exact hv)
    · exact hhit
    · intro p hp hpne hple
      have hsep' := hsep p.1 i p.2 v (hmem p hp) hv hpne
      have htri := edist2d_triangle
        (vertexPos cx cy radius values.length p.1 p.2) mouse
        (vertexPos cx cy radius values.length i v)
      rw [edist2d_comm] at hple
      linarith
    · intro p hp hp1
      have hpv := hmem p hp
      rw [hp1, hv] at hpv
      injection hpv with hpv
      exact hpv.symm
  · intro hmiss
    unfold detectHoverIndex
    apply hoverFold_miss
    intro p hp
    exact hmiss p.1 p.2 (hmem p hp)

theorem detectHover_correct_witness :
    detectHoverIndex 200 200 140 [50] (vertexPos 200 200 140 1 0 50) = 0 :=
  (detectHover_correct 200 200 140 [50] (vertexPos 200 200 140 1 0 50)
    (by
      intro i j vi vj hi hj hne
      exfalso
      have hi0 : i = 0 := by
        cases i with
        | zero => rfl
        | succ n =>
            simp only [List.get?_cons_succ, List.get?_nil] at hi
            exact Option.noConfusion hi
      have hj0 : j = 0 := by
        cases j with
        | zero => rfl
        | succ n =>
            simp only [List.get?_cons_succ, List.get?_nil] at hj
            exact Option.noConfusion hj
      exact hne (hi0.trans hj0.symm))).1 0 50 rfl
    (by simp [edist2d_self])

def typeErrorMsg : String := "TypeError: cannot set property of a primitive"

def rangeErrorMsg : String := "RangeError: invalid array length"

/-- The numeric value of a digit string, `none` on any non-digit
character. -/
def digitsVal : List Char → ℕ → Option ℕ
  | [], acc => some acc
  | c :: cs, acc =>
    if '0' ≤ c ∧ c ≤ '9' then digitsVal cs (acc * 10 + (c.toNat - 48)) else none

/-- The canonical array-index reading of a string key (`"0"`, `"1"`, …: plain
decimal, no leading zeros, below 2^32 − 1), per the ECMAScript array-index
rule; any other key is an ordinary string property. -/
def arrIndex (s : String) : Option ℕ :=
  match s.data with
  | [] => none
  | c :: cs =>
    if c = '0' ∧ cs ≠ [] then none
    else
      match digitsVal (c :: cs) 0 with
      | some n => if n < 4294967295 then some n else none
      | none => none

/-- The ECMAScript length-assignment coercion (`ToUint32` plus the RangeError
check that the coerced value equals `ToNumber` of the operand) for the value
shapes the merge can supply: `null` → 0, booleans → 0/1, integers in range,
plain decimal numeral strings (`""` → 0).  Exotic coercible spellings
(hex, exponent, whitespace, fractional) and array operands, which coerce
through `ToPrimitive`, are outside the modelled envelope and mapped to the
RangeError branch; no theorem below depends on them. -/
def lenCoerce : JVal → Option ℕ
  | .null => some 0
  | .bool b => some (cond b 1 0)
  | .num n => if 0 ≤ n ∧ n < 4294967296 then some n.toNat else none
  | .str s =>
      match digitsVal s.data 0 with
      | some n => if n < 4294967296 then some n else none
      | none => none
  | _ => none

/-- `arr[i] = v` on the JSON image of an array: an in-range index is set in
place; an out-of-range assignment extends the array, the skipped positions
becoming holes that read back as `null`. -/
def setElem (xs : List JVal) (i : ℕ) (v : JVal) : List JVal :=
  if i < xs.length then xs.set i v
  else xs ++ List.replicate (i - xs.length) JVal.null ++ [v]

/-- `arr.length = n` on the JSON image: truncate, or extend with holes
(`null` in the image). -/
def setLength (xs : List JVal) (n : ℕ) : List JVal :=
  if n ≤ xs.length then xs.take n
  else xs ++ List.replicate (n - xs.length) JVal.null

mutual

/-- One key of the strict-mode `merge(obj, src)`, exceptions explicit.
A non-null non-array object source is merged recursively: into an object
target's fields; into an array target by assigning the source's entries into
the array (`mergeIntoArrE`); into a fresh `{}` when the target is falsy or
absent; and onto a truthy primitive target the first property assignment of
the recursive call throws a TypeError — unless the source has no own
enumerable properties, in which case the loop body never runs and the
primitive survives.  Any other source value replaces the target wholesale. -/
def mergeValE (cur : Option JVal) : JVal → Except String JVal
  | .obj fs =>
    match cur with
    | some c =>
      if truthy c then
        match c with
        | .obj cfs => (mergeFieldsE cfs fs).map JVal.obj
        | .arr xs => (mergeIntoArrE xs fs).map JVal.arr
        | other => if fs.isEmpty then .ok other else .error typeErrorMsg
      else (mergeFieldsE [] fs).map JVal.obj
    | none => (mergeFieldsE [] fs).map JVal.obj
  | v => .ok v
termination_by structural v => v

/-- The `for (const key in src)` loop of the strict-mode `merge(obj, src)`
over an object target, exceptions explicit. -/
def mergeFieldsE (t : List (String × JVal)) :
    List (String × JVal) → Except String (List (String × JVal))
  | [] => .ok t
  | (k, v) :: rest =>
    match mergeValE (getKey t k) v with
    | .ok w => mergeFieldsE (setKey t k w) rest
    | .error e => .error e
termination_by structural s => s

/-- The same loop over an *array* target: a canonical index key assigns the
element slot (recursively, via the same per-key logic, an element read beyond
the length or at a hole being `undefined`/`null` and hence falsy); the
`length` key resizes the array — for an object source value the code first
re-assigns the current length (RangeError if the array is empty, since
`0 || {}` coerces `{}` to a length) and then merges into the number, which
throws unless the source is empty; any other key is an expando string
property, invisible in the JSON image. -/
def mergeIntoArrE (xs : List JVal) :
    List (String × JVal) → Except String (List JVal)
  | [] => .ok xs
  | (k, v) :: rest =>
    match arrIndex k with
    | some i =>
      match mergeValE (xs.get? i) v with
      | .ok w => mergeIntoArrE (setElem xs i w) rest
      | .error e => .error e
    | none =>
      if k == "length" then
        match v with
        | .obj gs =>
          if xs.length == 0 then .error rangeErrorMsg
          else if gs.isEmpty then mergeIntoArrE xs rest
          else .error typeErrorMsg
        | _ =>
          match lenCoerce v with
          | some n => mergeIntoArrE (setLength xs n) rest
          | none => .error rangeErrorMsg
      else mergeIntoArrE xs rest
termination_by structural s => s

end

/-- The source-value shapes the inner `merge` recurses into: non-null,
non-array objects (`src[key] && typeof src[key] === 'object' &&
!Array.isArray(src[key])`). -/
def isObjVal : JVal → Bool
  | .obj _ => true
  | _ => false

theorem mergeFieldsE_nil (t : List (String × JVal)) :
    mergeFieldsE t [] = .ok t := by
  simp [mergeFieldsE]

mutual

/-- The aligned (exception-free) fragment of one merge step: a recursive
object source only ever meets an object, absent, or falsy target slot — or a
truthy non-object slot with no own enumerable source entry to assign — so the
strict-mode loop never assigns into an array in place and never throws. -/
def alignedVal (cur : Option JVal) : JVal → Bool
  | .obj fs =>
    match cur with
    | some c =>
      if truthy c then
        match c with
        | .obj cfs => alignedFields cfs fs
        | _ => fs.isEmpty
      else alignedFields [] fs
    | none => alignedFields [] fs
  | _ => true
termination_by structural v => v

/-- `alignedVal` propagated over the `for...in` loop, tracking the evolving
target. -/
def alignedFields (t : List (String × JVal)) : List (String × JVal) → Bool
  | [] => true
  | (k, v) :: rest =>
    alignedVal (getKey t k) v &&
      alignedFields (setKey t k (mergeVal (getKey t k) v)) rest
termination_by structural s => s

end

mutual

/-- On the aligned fragment the exception-aware merge never throws and
computes exactly the pure `mergeVal`. -/
theorem mergeValE_agree : ∀ (v : JVal) (cur : Option JVal),
    alignedVal cur v = true → mergeValE cur v = .ok (mergeVal cur v)
  | .null, _, _ => rfl
  | .bool _, _, _ => rfl
  | .num _, _, _ => rfl
  | .str _, _, _ => rfl
  | .arr _, _, _ => rfl
  | .obj fs, cur, hal => by
      cases cur with
      | none =>
          simp only [mergeValE, mergeVal]
          rw [mergeFieldsE_agree fs [] (by simpa [alignedVal] using hal)]
          rfl
      | some c =>
          cases c with
          | obj cfs =>
              simp only [mergeValE, mergeVal, truthy, if_true]
              rw [mergeFieldsE_agree fs cfs (by simpa [alignedVal, truthy] using hal)]
              rfl
          | arr xs =>
              have hfs : fs = [] := by
                simpa [alignedVal, truthy, List.isEmpty_iff] using hal
              subst hfs
              rfl
          | null =>
              simp only [mergeValE, mergeVal, truthy, Bool.false_eq_true,
                if_false]
              rw [mergeFieldsE_agree fs [] (by simpa [alignedVal, truthy] using hal)]
              rfl
          | bool b =>
              cases b with
              | false =>
                  simp only [mergeValE, mergeVal, truthy, Bool.false_eq_true,
                    if_false]
                  rw [mergeFieldsE_agree fs []
                    (by simpa [alignedVal, truthy] using hal)]
                  rfl
              | true =>
                  have hfs : fs = [] := by
                    simpa [alignedVal, truthy, List.isEmpty_iff] using hal
                  subst hfs
                  rfl
          | num n =>
              by_cases hn : n = 0
              · subst hn
                simp only [mergeValE, mergeVal, truthy, bne_self_eq_false,
                  Bool.false_eq_true, if_false]
                rw [mergeFieldsE_agree fs []
                  (by simpa [alignedVal, truthy] using hal)]
                rfl
              · have ht : truthy (JVal.num n) = true := by simp [truthy, hn]
                have hfs : fs = [] := by
                  simpa [alignedVal, ht, List.isEmpty_iff] using hal
                subst hfs
                simp only [mergeValE, mergeVal, ht, if_true, List.isEmpty_nil]
          | str s =>
              by_cases hs : s = ""
              · subst hs
                simp only [mergeValE, mergeVal, truthy, bne_self_eq_false,
                  Bool.false_eq_true, if_false]
                rw [mergeFieldsE_agree fs []
                  (by simpa [alignedVal, truthy] using hal)]
                rfl
              · have ht : truthy (JVal.str s) = true := by simp [truthy, hs]
                have hfs : fs = [] := by
                  simpa [alignedVal, ht, List.isEmpty_iff] using hal
                subst hfs
                simp only [mergeValE, mergeVal, ht, if_true, List.isEmpty_nil]

theorem mergeFieldsE_agree : ∀ (s t : List (String × JVal)),
    alignedFields t s = true → mergeFieldsE t s = .ok (mergeFields t s)
  | [], t, _ => by simp [mergeFieldsE, mergeFields]
  | (k, v) :: rest, t, hal => by
      unfold alignedFields at hal
      rw [Bool.and_eq_true] at hal
      simp only [mergeFieldsE]
      rw [mergeValE_agree v (getKey t k) hal.1]
      rw [mergeFields_cons]
      exact mergeFieldsE_agree rest (setKey t k (mergeVal (getKey t k) v)) hal.2

end

/-- Keys the source never mentions are untouched by the exception-aware
`for...in` loop. -/
theorem getKey_mergeFieldsE_frame (s : List (String × JVal)) (k : String)
    (hs : ∀ p ∈ s, p.1 ≠ k) :
    ∀ t r, mergeFieldsE t s = .ok r → getKey r k = getKey t k := by
  induction s with
  | nil =>
      intro t r h
      rw [mergeFieldsE_nil] at h
      cases h
      rfl
  | cons p rest ih =>
      intro t r h
      obtain ⟨k0, v0⟩ := p
      simp only [mergeFieldsE] at h
      cases hmv : mergeValE (getKey t k0) v0 with
      | error e => rw [hmv] at h; exact Except.noConfusion h
      | ok w =>
          rw [hmv] at h
          have hk0 : k0 ≠ k := hs (k0, v0) (List.mem_cons_self _ _)
          rw [ih (fun q hq => hs q (List.mem_cons_of_mem _ hq)) _ r h,
            getKey_setKey_ne _ _ _ _ (Ne.symm hk0)]

/-- The positional value of a digit list. -/
def strVal (ds : List Char) : ℕ :=
  ds.foldl (fun a c => a * 10 + (c.toNat - 48)) 0

theorem foldl_digits_append (ds : List Char) (c : Char) (acc : ℕ) :
    (ds ++ [c]).foldl (fun a d => a * 10 + (d.toNat - 48)) acc
      = (ds.foldl (fun a d => a * 10 + (d.toNat - 48)) acc) * 10
          + (c.toNat - 48) := by
  simp [List.foldl_append]

theorem digitsVal_eq_some (ds : List Char) :
    ∀ acc n, digitsVal ds acc = some n →
      (∀ c ∈ ds, '0' ≤ c ∧ c ≤ '9') ∧
      n = ds.foldl (fun a c => a * 10 + (c.toNat - 48)) acc := by
  induction ds with
  | nil => intro acc n h; simp [digitsVal] at h; simp [h]
  | cons c cs ih =>
      intro acc n h
      simp only [digitsVal] at h
      by_cases hc : '0' ≤ c ∧ c ≤ '9'
      · rw [if_pos hc] at h
        obtain ⟨hd, hv⟩ := ih _ _ h
        refine ⟨?_, ?_⟩
        · intro d hd'
          rcases List.mem_cons.1 hd' with hh | hh
          · subst hh; exact hc
          · exact hd d hh
        · simpa [List.foldl_cons] using hv
      · rw [if_neg hc] at h
        exact Option.noConfusion h

theorem digitsVal_of_digits (ds : List Char) :
    ∀ acc, (∀ c ∈ ds, '0' ≤ c ∧ c ≤ '9') →
      digitsVal ds acc
        = some (ds.foldl (fun a c => a * 10 + (c.toNat - 48)) acc) := by
  induction ds with
  | nil => intro acc _; simp [digitsVal]
  | cons c cs ih =>
      intro acc h
      simp only [digitsVal]
      rw [if_pos (h c (List.mem_cons_self _ _))]
      exact ih _ (fun d hd => h d (List.mem_cons_of_mem _ hd))

theorem digit_toNat_bounds {c : Char} (h : '0' ≤ c ∧ c ≤ '9') :
    48 ≤ c.toNat ∧ c.toNat ≤ 57 := by
  obtain ⟨h1, h2⟩ := h
  rw [Char.le_def] at h1 h2
  constructor
  · exact h1
  · exact h2

theorem foldl_digits_bounds (ds : List Char) :
    ∀ acc, (∀ c ∈ ds, '0' ≤ c ∧ c ≤ '9') →
      acc * 10 ^ ds.length
          ≤ ds.foldl (fun a c => a * 10 + (c.toNat - 48)) acc ∧
      ds.foldl (fun a c => a * 10 + (c.toNat - 48)) acc
          < (acc + 1) * 10 ^ ds.length := by
  induction ds with
  | nil => intro acc _; simp
  | cons c cs ih =>
      intro acc h
      have hc := digit_toNat_bounds (h c (List.mem_cons_self _ _))
      have hrec := ih (acc * 10 + (c.toNat - 48))
        (fun d hd => h d (List.mem_cons_of_mem _ hd))
      simp only [List.foldl_cons, List.length_cons]
      constructor
      · calc acc * 10 ^ (cs.length + 1)
            = (acc * 10) * 10 ^ cs.length := by ring
          _ ≤ (acc * 10 + (c.toNat - 48)) * 10 ^ cs.length := by
              apply Nat.mul_le_mul_right
              omega
          _ ≤ _ := hrec.1
      · calc cs.foldl (fun a c => a * 10 + (c.toNat - 48))
              (acc * 10 + (c.toNat - 48))
            < (acc * 10 + (c.toNat - 48) + 1) * 10 ^ cs.length := hrec.2
          _ ≤ ((acc + 1) * 10) * 10 ^ cs.length := by
              apply Nat.mul_le_mul_right
              omega
          _ = (acc + 1) * 10 ^ (cs.length + 1) := by ring

theorem char_eq_of_toNat_eq {c d : Char} (h : c.toNat = d.toNat) : c = d :=
  Char.ext (UInt32.ext h)

/-- A canonical decimal key: nonempty digits, no leading zero unless the
single digit `0`. -/
def canonDigits (ds : List Char) : Prop :=
  ds ≠ [] ∧ (∀ c ∈ ds, '0' ≤ c ∧ c ≤ '9') ∧
    (∀ c cs, ds = c :: cs → c = '0' → cs = [])

theorem strVal_lt (ds : List Char) (h : ∀ c ∈ ds, '0' ≤ c ∧ c ≤ '9') :
    strVal ds < 10 ^ ds.length := by
  have := (foldl_digits_bounds ds 0 h).2
  simpa [strVal] using this

theorem strVal_ge (c : Char) (cs : List Char)
    (h : ∀ d ∈ c :: cs, '0' ≤ d ∧ d ≤ '9') (hc : c ≠ '0') :
    10 ^ cs.length ≤ strVal (c :: cs) := by
  have hcb := digit_toNat_bounds (h c (List.mem_cons_self _ _))
  have hc1 : 1 ≤ c.toNat - 48 := by
    rcases Nat.lt_or_ge 48 c.toNat with hlt | hge
    · omega
    · exfalso
      have : c.toNat = 48 := by omega
      exact hc (char_eq_of_toNat_eq (by simpa using this))
  have := (foldl_digits_bounds cs (c.toNat - 48)
    (fun d hd => h d (List.mem_cons_of_mem _ hd))).1
  calc 10 ^ cs.length = 1 * 10 ^ cs.length := by ring
    _ ≤ (c.toNat - 48) * 10 ^ cs.length := by
        exact Nat.mul_le_mul_right _ hc1
    _ ≤ _ := by simpa [strVal, List.foldl_cons] using this

theorem canon_length_le (ds₁ ds₂ : List Char) (h₁ : canonDigits ds₁)
    (h₂ : canonDigits ds₂) (hv : strVal ds₁ = strVal ds₂) :
    ds₁.length ≤ ds₂.length := by
  by_contra hlt
  push_neg at hlt
  obtain ⟨hne, hd, hcan⟩ := h₁
  cases ds₁ with
  | nil => exact hne rfl
  | cons c cs =>
      have hlen2 : 2 ≤ (c :: cs).length := by
        have h2 := h₂.1
        cases ds₂ with
        | nil => exact absurd rfl h2
        | cons d ds => simp at hlt ⊢; omega
      have hc : c ≠ '0' := by
        intro hc0
        have := hcan c cs rfl hc0
        subst this
        simp at hlen2
      have hge := strVal_ge c cs hd hc
      have hlt2 := strVal_lt ds₂ h₂.2.1
      have hpow : 10 ^ ds₂.length ≤ 10 ^ cs.length := by
        apply Nat.pow_le_pow_right (by norm_num)
        simp at hlt
        omega
      omega

theorem canon_uniq : ∀ L ds₁ ds₂, ds₁.length ≤ L → canonDigits ds₁ →
    canonDigits ds₂ → strVal ds₁ = strVal ds₂ → ds₁ = ds₂ := by
  intro L
  induction L with
  | zero =>
      intro ds₁ ds₂ hL h₁ _ _
      cases ds₁ with
      | nil => exact absurd rfl h₁.1
      | cons c cs => simp at hL
  | succ L ih =>
      intro ds₁ ds₂ hL h₁ h₂ hv
      have hlen : ds₁.length = ds₂.length :=
        Nat.le_antisymm (canon_length_le ds₁ ds₂ h₁ h₂ hv)
          (canon_length_le ds₂ ds₁ h₂ h₁ hv.symm)
      rcases List.eq_nil_or_concat ds₁ with hnil | ⟨p₁, e₁, hp₁⟩
      · exact absurd hnil h₁.1
      rcases List.eq_nil_or_concat ds₂ with hnil | ⟨p₂, e₂, hp₂⟩
      · exact absurd hnil h₂.1
      subst hp₁
      subst hp₂
      simp only [List.concat_eq_append] at hv hlen hL h₁ h₂
      have he₁ := digit_toNat_bounds (h₁.2.1 e₁ (by simp))
      have he₂ := digit_toNat_bounds (h₂.2.1 e₂ (by simp))
      have hv₁ : strVal (p₁ ++ [e₁]) = strVal p₁ * 10 + (e₁.toNat - 48) := by
        simp [strVal, foldl_digits_append]
      have hv₂ : strVal (p₂ ++ [e₂]) = strVal p₂ * 10 + (e₂.toNat - 48) := by
        simp [strVal, foldl_digits_append]
      rw [hv₁, hv₂] at hv
      have hde : e₁.toNat - 48 = e₂.toNat - 48 ∧ strVal p₁ = strVal p₂ := by
        constructor <;> omega
      have he : e₁ = e₂ := char_eq_of_toNat_eq (by omega)
      subst he
      cases p₁ with
      | nil =>
          cases p₂ with
          | nil => rfl
          | cons d dd => simp at hlen
      | cons c cs =>
          cases p₂ with
          | nil => simp at hlen
          | cons d dd =>
              have hcan₁ : canonDigits (c :: cs) := by
                refine ⟨by simp, fun x hx => h₁.2.1 x ?_, ?_⟩
                · rcases List.mem_cons.1 hx with hh | hh
                  · simp [hh]
                  · simp [hh]
                intro c' cs' heq hc0
                injection heq with heqc heqcs
                subst heqc
                subst heqcs
                have := h₁.2.2 c (cs ++ [e₁]) (by simp) hc0
                simp at this
              have hcan₂ : canonDigits (d :: dd) := by
                refine ⟨by simp, fun x hx => h₂.2.1 x ?_, ?_⟩
                · rcases List.mem_cons.1 hx with hh | hh
                  · simp [hh]
                  · simp [hh]
                intro c' cs' heq hc0
                injection heq with heqc heqcs
                subst heqc
                subst heqcs
                have := h₂.2.2 d (dd ++ [e₁]) (by simp) hc0
                simp at this
              have hlen' : (c :: cs).length ≤ L := by
                simp at hL
                simp
                omega
              have := ih (c :: cs) (d :: dd) hlen' hcan₁ hcan₂ hde.2
              rw [this]

theorem arrIndex_charact (s : String) (n : ℕ) (h : arrIndex s = some n) :
    canonDigits s.data ∧ strVal s.data = n ∧ n < 4294967295 := by
  unfold arrIndex at h
  cases hd : s.data with
  | nil => rw [hd] at h; exact Option.noConfusion h
  | cons c cs =>
      rw [hd] at h
      dsimp only at h
      by_cases hg : c = '0' ∧ cs ≠ []
      · rw [if_pos hg] at h; exact Option.noConfusion h
      · rw [if_neg hg] at h
        cases hv : digitsVal (c :: cs) 0 with
        | none => rw [hv] at h; exact Option.noConfusion h
        | some m =>
            rw [hv] at h
            dsimp only at h
            by_cases hb : m < 4294967295
            · rw [if_pos hb] at h
              injection h with h
              subst h
              obtain ⟨hdig, hval⟩ := digitsVal_eq_some (c :: cs) 0 m hv
              refine ⟨⟨by simp, hdig, ?_⟩, ?_, hb⟩
              · intro c' cs' heq hc0
                injection heq with h1 h2
                subst h1
                subst h2
                by_contra hne
                exact hg ⟨hc0, hne⟩
              · simpa [strVal] using hval.symm
            · rw [if_neg hb] at h; exact Option.noConfusion h

theorem string_eq_of_data_eq {s t : String} (h : s.data = t.data) : s = t := by
  cases s
  cases t
  exact congrArg String.mk h

theorem arrIndex_inj {k₁ k₂ : String} {j : ℕ} (h₁ : arrIndex k₁ = some j)
    (h₂ : arrIndex k₂ = some j) : k₁ = k₂ := by
  obtain ⟨hc₁, hv₁, _⟩ := arrIndex_charact k₁ j h₁
  obtain ⟨hc₂, hv₂, _⟩ := arrIndex_charact k₂ j h₂
  exact string_eq_of_data_eq
    (canon_uniq k₁.data.length k₁.data k₂.data le_rfl hc₁ hc₂
      (by rw [hv₁, hv₂]))

theorem natChars_charact : ∀ fuel n, n < fuel →
    canonDigits (natChars fuel n) ∧ strVal (natChars fuel n) = n := by
  intro fuel
  induction fuel with
  | zero => intro n h; omega
  | succ f ih =>
      intro n h
      by_cases h10 : n < 10
      · have hn : natChars (f + 1) n = [Char.ofNat (48 + n)] := by
          simp [natChars, h10]
        rw [hn]
        interval_cases n <;>
          exact ⟨⟨by simp, by decide,
            fun c cs h hc0 => by injection h with h1 h2; exact h2.symm⟩,
            by decide⟩
      · have hn : natChars (f + 1) n
            = natChars f (n / 10) ++ [Char.ofNat (48 + n % 10)] := by
          simp [natChars, h10]
        have hdivlt : n / 10 < f := by
          have h1 : n / 10 < n := Nat.div_lt_self (by omega) (by norm_num)
          omega
        obtain ⟨⟨hne, hdig, hcan⟩, hval⟩ := ih (n / 10) hdivlt
        have hdig10 : n % 10 < 10 := Nat.mod_lt _ (by norm_num)
        have hlast : '0' ≤ Char.ofNat (48 + n % 10) ∧
            Char.ofNat (48 + n % 10) ≤ '9' ∧
            (Char.ofNat (48 + n % 10)).toNat - 48 = n % 10 := by
          have : n % 10 = n % 10 := rfl
          interval_cases hm : n % 10 <;> exact ⟨by decide, by decide, by decide⟩
        rw [hn]
        have hvapp : strVal (natChars f (n / 10) ++ [Char.ofNat (48 + n % 10)])
            = strVal (natChars f (n / 10)) * 10
                + ((Char.ofNat (48 + n % 10)).toNat - 48) := by
          simp [strVal, foldl_digits_append]
        refine ⟨⟨by simp [hne], ?_, ?_⟩, ?_⟩
        · intro c hc
          rcases List.mem_append.1 hc with hc | hc
          · exact hdig c hc
          · simp at hc
            subst hc
            exact ⟨hlast.1, hlast.2.1⟩
        · intro c cs heq hc0
          cases hdl : natChars f (n / 10) with
          | nil => exact absurd hdl hne
          | cons c' cs' =>
              rw [hdl] at heq
              have hcc : c' = c := by
                have := congrArg List.head? heq
                simpa using this
              have hzero := hcan c' cs' hdl (by rw [hcc]; exact hc0)
              subst hzero
              rw [hdl] at hval
              have hv1 : strVal [c'] = 0 := by
                have hc'0 : c' = '0' := by rw [hcc]; exact hc0
                rw [hc'0]
                simp [strVal]
              rw [hv1] at hval
              exfalso
              omega
        · rw [hvapp, hval, hlast.2.2]
          omega

theorem natToStr_data (n : ℕ) : (natToStr n).data = natChars (n + 1) n := rfl

theorem arrIndex_natToStr (n : ℕ) (h : n < 4294967295) :
    arrIndex (natToStr n) = some n := by
  obtain ⟨⟨hne, hdig, hcan⟩, hval⟩ := natChars_charact (n + 1) n (by omega)
  unfold arrIndex
  rw [natToStr_data]
  cases hd : natChars (n + 1) n with
  | nil => exact absurd hd hne
  | cons c cs =>
      dsimp only
      rw [if_neg ?hguard]
      case hguard =>
        rintro ⟨hc0, hcs⟩
        exact hcs (hcan c cs hd hc0)
      rw [digitsVal_of_digits (c :: cs) 0 (by rw [← hd]; exact hdig)]
      rw [hd] at hval
      have : (c :: cs).foldl (fun a c => a * 10 + (c.toNat - 48)) 0 = n := by
        simpa [strVal] using hval
      rw [this]
      simp [h]

/-! ### JavaScript-representable values and the idempotence of the merge -/

mutual

/-- A JavaScript-representable (JSON-image) value: every object layer —
including objects sitting inside arrays — has pairwise-distinct keys, as
every value produced by a JavaScript program or by `JSON.parse` does. -/
def jsWF : JVal → Bool
  | .obj fs => nodupKeys fs && jsWFFields fs
  | .arr xs => jsWFList xs
  | _ => true

def jsWFFields : List (String × JVal) → Bool
  | [] => true
  | (_, v) :: rest => jsWF v && jsWFFields rest

def jsWFList : List JVal → Bool
  | [] => true
  | v :: rest => jsWF v && jsWFList rest

end

theorem jsWFFields_mem (s : List (String × JVal)) (hs : jsWFFields s = true) :
    ∀ p ∈ s, jsWF p.2 = true := by
  induction s with
  | nil => intro p hp; simp at hp
  | cons q rest ih =>
      obtain ⟨k0, v0⟩ := q
      unfold jsWFFields at hs
      rw [Bool.and_eq_true] at hs
      intro p hp
      rcases List.mem_cons.1 hp with hp | hp
      · subst hp; exact hs.1
      · exact ih hs.2 p hp

theorem jsWF_obj (fs : List (String × JVal)) (h : jsWF (.obj fs) = true) :
    nodupKeys fs = true ∧ jsWFFields fs = true := by
  unfold jsWF at h
  rwa [Bool.and_eq_true] at h

/-- A `null` (or hole) slot and an absent slot drive the merge identically:
both are falsy, so an object source lands in a fresh `{}` either way, and any
other source replaces the slot wholesale. -/
theorem mergeValE_null_cur (v : JVal) :
    mergeValE (some JVal.null) v = mergeValE none v := by
  cases v with
  | obj fs => simp [mergeValE, truthy]
  | null => rfl
  | bool b => rfl
  | num n => rfl
  | str s => rfl
  | arr xs => rfl

mutual

/-- Merging any representable source into an absent slot stays inside the
aligned fragment: every nested read hits a fresh target. -/
theorem alignedVal_fresh : ∀ v, jsWF v = true → alignedVal none v = true
  | .null, _ => rfl
  | .bool _, _ => rfl
  | .num _, _ => rfl
  | .str _, _ => rfl
  | .arr _, _ => rfl
  | .obj fs, h => by
      obtain ⟨hnd, hwf⟩ := jsWF_obj fs h
      simp only [alignedVal]
      exact alignedFields_fresh fs [] hnd hwf (fun p _ => rfl)

theorem alignedFields_fresh : ∀ (s t : List (String × JVal)),
    nodupKeys s = true → jsWFFields s = true →
    (∀ p ∈ s, getKey t p.1 = none) → alignedFields t s = true
  | [], _, _, _, _ => rfl
  | (k, v) :: rest, t, hnd, hwf, hdis => by
      obtain ⟨hany, hnd'⟩ := nodupKeys_cons k v rest hnd
      have hv : jsWF v = true := by
        unfold jsWFFields at hwf; rw [Bool.and_eq_true] at hwf; exact hwf.1
      have hwr : jsWFFields rest = true := by
        unfold jsWFFields at hwf; rw [Bool.and_eq_true] at hwf; exact hwf.2
      have hk : getKey t k = none := hdis (k, v) (List.mem_cons_self _ _)
      simp only [alignedFields, hk]
      rw [Bool.and_eq_true]
      refine ⟨alignedVal_fresh v hv, ?_⟩
      apply alignedFields_fresh rest _ hnd' hwr
      intro p hp
      rw [getKey_setKey_ne t k p.1 _ (hany p hp)]
      exact hdis p (List.mem_cons_of_mem _ hp)

end

/-- Merging a representable source into an absent slot never throws and
equals the pure merge. -/
theorem mergeValE_fresh (v : JVal) (h : jsWF v = true) :
    mergeValE none v = .ok (mergeVal none v) :=
  mergeValE_agree v none (alignedVal_fresh v h)

/-- Merging a representable source into a `null` slot never throws. -/
theorem mergeValE_null_ok (v : JVal) (h : jsWF v = true) :
    mergeValE (some JVal.null) v = .ok (mergeVal none v) := by
  rw [mergeValE_null_cur]
  exact mergeValE_fresh v h

/-- The value the source list writes at array position `j`, if any: the value
of the (with distinct keys: unique) entry whose key reads as index `j`. -/
def writtenAt (s : List (String × JVal)) (j : ℕ) : Option JVal :=
  match s with
  | [] => none
  | (k, v) :: rest =>
    match arrIndex k with
    | some i => if i = j then some v else writtenAt rest j
    | none => writtenAt rest j

/-- One past the largest index key of the source list (`0` if none). -/
def idxBound : List (String × JVal) → ℕ
  | [] => 0
  | (k, _) :: rest =>
    match arrIndex k with
    | some i => max (i + 1) (idxBound rest)
    | none => idxBound rest

/-- The source list has no `length` key. -/
def noLen (s : List (String × JVal)) : Bool :=
  s.all (fun p => p.1 != "length")

theorem setElem_length (xs : List JVal) (i : ℕ) (v : JVal) :
    (setElem xs i v).length = max xs.length (i + 1) := by
  unfold setElem
  by_cases h : i < xs.length
  · rw [if_pos h]
    simp
    omega
  · rw [if_neg h]
    simp
    omega

theorem setElem_get?_self (xs : List JVal) (i : ℕ) (v : JVal) :
    (setElem xs i v).get? i = some v := by
  unfold setElem
  by_cases h : i < xs.length
  · rw [if_pos h]
    simp [List.get?_eq_getElem?, List.getElem?_set, h]
  · rw [if_neg h]
    have hlen : (xs ++ List.replicate (i - xs.length) JVal.null).length = i := by
      simp
      omega
    have := get?_append_offset (xs ++ List.replicate (i - xs.length) JVal.null)
      [v] 0
    rw [hlen] at this
    simpa using this

theorem setElem_get?_lt (xs : List JVal) (i j : ℕ) (v : JVal) (hne : j ≠ i)
    (hj : j < xs.length) : (setElem xs i v).get? j = xs.get? j := by
  unfold setElem
  by_cases h : i < xs.length
  · rw [if_pos h]
    simp [List.get?_eq_getElem?, List.getElem?_set, Ne.symm hne]
  · rw [if_neg h]
    rw [List.get?_eq_getElem?, List.get?_eq_getElem?,
      List.getElem?_append_left (by simp; omega),
      List.getElem?_append_left (by omega)]

theorem setElem_get?_pad (xs : List JVal) (i j : ℕ) (v : JVal) (hne : j ≠ i)
    (hj : xs.length ≤ j) (hlt : j < (setElem xs i v).length) :
    (setElem xs i v).get? j = some JVal.null := by
  have hib : j < i + 1 := by
    have := setElem_length xs i v
    omega
  have hji : j < i := by omega
  have hi : ¬ i < xs.length := by omega
  unfold setElem
  rw [if_neg hi]
  rw [List.get?_eq_getElem?,
    List.getElem?_append_left (by simp; omega),
    List.getElem?_append_right (by simpa using hj),
    List.getElem?_replicate]
  rw [if_pos (by omega)]

theorem setLength_length (xs : List JVal) (n : ℕ) :
    (setLength xs n).length = n := by
  unfold setLength
  by_cases h : n ≤ xs.length
  · rw [if_pos h]; simp; omega
  · rw [if_neg h]; simp; omega

theorem setLength_get?_keep (xs : List JVal) (n j : ℕ) (hj : j < n)
    (hx : j < xs.length) : (setLength xs n).get? j = xs.get? j := by
  unfold setLength
  by_cases h : n ≤ xs.length
  · rw [if_pos h]
    simp [List.get?_eq_getElem?, List.getElem?_take, hj]
  · rw [if_neg h]
    rw [List.get?_eq_getElem?, List.get?_eq_getElem?,
      List.getElem?_append_left (by omega)]

theorem setLength_get?_pad (xs : List JVal) (n j : ℕ) (hj : j < n)
    (hx : xs.length ≤ j) : (setLength xs n).get? j = some JVal.null := by
  have h : ¬ n ≤ xs.length := by omega
  unfold setLength
  rw [if_neg h]
  rw [List.get?_eq_getElem?, List.getElem?_append_right (by simpa using hx),
    List.getElem?_replicate]
  rw [if_pos (by omega)]

theorem get?_eq_none_of_ge {α : Type} (l : List α) (j : ℕ)
    (h : l.length ≤ j) : l.get? j = none := by
  rw [List.get?_eq_getElem?]
  exact List.getElem?_eq_none (by simpa using h)

theorem writtenAt_none_of_keys_ne (rest : List (String × JVal)) (k : String)
    (i : ℕ) (hk : arrIndex k = some i) (h : ∀ p ∈ rest, p.1 ≠ k) :
    writtenAt rest i = none := by
  induction rest with
  | nil => rfl
  | cons p rest' ih =>
      obtain ⟨k', v'⟩ := p
      simp only [writtenAt]
      cases hk' : arrIndex k' with
      | some i' =>
          dsimp only
          have hne : k' ≠ k := h (k', v') (List.mem_cons_self _ _)
          rw [if_neg ?hii]
          case hii =>
            intro hii
            subst hii
            exact hne (arrIndex_inj hk' hk)
          exact ih (fun p hp => h p (List.mem_cons_of_mem _ hp))
      | none =>
          dsimp only
          exact ih (fun p hp => h p (List.mem_cons_of_mem _ hp))

theorem writtenAt_append_of_none (s₁ s₂ : List (String × JVal)) (j : ℕ)
    (h : writtenAt s₁ j = none) :
    writtenAt (s₁ ++ s₂) j = writtenAt s₂ j := by
  induction s₁ with
  | nil => rfl
  | cons p rest ih =>
      obtain ⟨k, v⟩ := p
      simp only [writtenAt] at h ⊢
      cases hk : arrIndex k with
      | some i =>
          rw [hk] at h
          dsimp only at h ⊢
          by_cases hij : i = j
          · rw [if_pos hij] at h; exact Option.noConfusion h
          · rw [if_neg hij] at h ⊢
            exact ih h
      | none =>
          rw [hk] at h
          dsimp only at h ⊢
          exact ih h

theorem writtenAt_append_of_some (s₁ s₂ : List (String × JVal)) (j : ℕ)
    (v : JVal) (h : writtenAt s₁ j = some v) :
    writtenAt (s₁ ++ s₂) j = some v := by
  induction s₁ with
  | nil => exact Option.noConfusion h
  | cons p rest ih =>
      obtain ⟨k, w⟩ := p
      simp only [writtenAt] at h ⊢
      cases hk : arrIndex k with
      | some i =>
          rw [hk] at h
          dsimp only at h ⊢
          by_cases hij : i = j
          · rwa [if_pos hij] at h ⊢
          · rw [if_neg hij] at h ⊢
            exact ih h
      | none =>
          rw [hk] at h
          dsimp only at h ⊢
          exact ih h

theorem mergeIntoArrE_nil (a : List JVal) : mergeIntoArrE a [] = .ok a := by
  simp [mergeIntoArrE]

theorem mergeIntoArrE_append (u w : List (String × JVal)) : ∀ a,
    mergeIntoArrE a (u ++ w)
      = match mergeIntoArrE a u with
        | .ok m => mergeIntoArrE m w
        | .error e => .error e := by
  induction u with
  | nil => intro a; simp [mergeIntoArrE]
  | cons p rest ih =>
      intro a
      obtain ⟨k, v⟩ := p
      rw [List.cons_append]
      simp only [mergeIntoArrE]
      cases arrIndex k with
      | some i =>
          dsimp only
          cases mergeValE (a.get? i) v with
          | ok w' => exact ih (setElem a i w')
          | error e => rfl
      | none =>
          dsimp only
          by_cases hk : (k == "length") = true
          · rw [if_pos hk, if_pos hk]
            cases v with
            | obj gs =>
                dsimp only
                by_cases hxs : (a.length == 0) = true
                · rw [if_pos hxs, if_pos hxs]
                · rw [if_neg hxs, if_neg hxs]
                  by_cases hgs : gs.isEmpty = true
                  · rw [if_pos hgs, if_pos hgs]; exact ih a
                  · rw [if_neg hgs, if_neg hgs]
            | null =>
                dsimp only
                cases lenCoerce JVal.null with
                | some n => exact ih (setLength a n)
                | none => rfl
            | bool b =>
                dsimp only
                cases lenCoerce (JVal.bool b) with
                | some n => exact ih (setLength a n)
                | none => rfl
            | num n' =>
                dsimp only
                cases lenCoerce (JVal.num n') with
                | some n => exact ih (setLength a n)
                | none => rfl
            | str s' =>
                dsimp only
                cases lenCoerce (JVal.str s') with
                | some n => exact ih (setLength a n)
                | none => rfl
            | arr ys =>
                dsimp only
                cases lenCoerce (JVal.arr ys) with
                | some n => exact ih (setLength a n)
                | none => rfl
          · rw [if_neg hk, if_neg hk]
            exact ih a

/-- Characterization of a successful `length`-free `for...in` run over an
array target: the length grows to cover every written index, each written
slot holds the (successful) merge of its source value into the original slot
— a padded hole reading as `null` merges exactly like an absent slot — and
every other slot is preserved, the freshly padded ones as `null`. -/
theorem mergeIntoArrE_char : ∀ (s : List (String × JVal)),
    noLen s = true → nodupKeys s = true →
    ∀ z c, mergeIntoArrE z s = .ok c →
      c.length = max z.length (idxBound s) ∧
      (∀ j, writtenAt s j = none → j < z.length → c.get? j = z.get? j) ∧
      (∀ j, writtenAt s j = none → z.length ≤ j → j < c.length →
        c.get? j = some JVal.null) ∧
      (∀ j v, writtenAt s j = some v →
        ∃ w, mergeValE (z.get? j) v = .ok w ∧ c.get? j = some w) := by
  intro s
  induction s with
  | nil =>
      intro _ _ z c h
      rw [mergeIntoArrE_nil] at h
      cases h
      exact ⟨by simp [idxBound], fun j _ _ => rfl,
        fun j _ h1 h2 => by omega, fun j v h => Option.noConfusion h⟩
  | cons p rest ih =>
      obtain ⟨k, v⟩ := p
      intro hnl hnd z c h
      have hnl' := hnl
      unfold noLen at hnl'
      rw [List.all_cons, Bool.and_eq_true] at hnl'
      have hnlr : noLen rest = true := hnl'.2
      have hkl : (k == "length") = false := by simpa using hnl'.1
      obtain ⟨hany, hndr⟩ := nodupKeys_cons k v rest hnd
      simp only [mergeIntoArrE] at h
      cases hak : arrIndex k with
      | some i =>
          rw [hak] at h
          dsimp only at h
          cases hmv : mergeValE (z.get? i) v with
          | error e => rw [hmv] at h; exact Except.noConfusion h
          | ok w =>
              rw [hmv] at h
              obtain ⟨ihlen, ihkeep, ihpad, ihwr⟩ :=
                ih hnlr hndr (setElem z i w) c h
              have hwrest : writtenAt rest i = none :=
                writtenAt_none_of_keys_ne rest k i hak hany
              have hwcons : ∀ j, writtenAt ((k, v) :: rest) j
                  = if i = j then some v else writtenAt rest j := by
                intro j
                simp only [writtenAt, hak]
              refine ⟨?_, ?_, ?_, ?_⟩
              · rw [ihlen, setElem_length]
                have : idxBound ((k, v) :: rest)
                    = max (i + 1) (idxBound rest) := by
                  simp only [idxBound, hak]
                rw [this]
                omega
              · intro j hj hjz
                rw [hwcons j] at hj
                by_cases hij : i = j
                · rw [if_pos hij] at hj; exact Option.noConfusion hj
                · rw [if_neg hij] at hj
                  rw [ihkeep j hj (by rw [setElem_length]; omega)]
                  exact setElem_get?_lt z i j w (Ne.symm hij) hjz
              · intro j hj hjz hjc
                rw [hwcons j] at hj
                by_cases hij : i = j
                · rw [if_pos hij] at hj; exact Option.noConfusion hj
                · rw [if_neg hij] at hj
                  by_cases hjl : j < (setElem z i w).length
                  · rw [ihkeep j hj hjl]
                    exact setElem_get?_pad z i j w (Ne.symm hij) hjz hjl
                  · exact ihpad j hj (by omega) hjc
              · intro j v' hj
                rw [hwcons j] at hj
                by_cases hij : i = j
                · rw [if_pos hij] at hj
                  injection hj with hj
                  subst hj
                  subst hij
                  refine ⟨w, hmv, ?_⟩
                  rw [ihkeep i hwrest (by rw [setElem_length]; omega)]
                  exact setElem_get?_self z i w
                · rw [if_neg hij] at hj
                  obtain ⟨w', hw', hc'⟩ := ihwr j v' hj
                  refine ⟨w', ?_, hc'⟩
                  by_cases hjz : j < z.length
                  · rwa [setElem_get?_lt z i j w (Ne.symm hij) hjz] at hw'
                  · by_cases hjl : j < (setElem z i w).length
                    · rw [setElem_get?_pad z i j w (Ne.symm hij) (by omega)
                        hjl] at hw'
                      rw [get?_eq_none_of_ge z j (by omega)]
                      rwa [mergeValE_null_cur] at hw'
                    · rw [get?_eq_none_of_ge _ j (by omega)] at hw'
                      rwa [get?_eq_none_of_ge z j (by omega)]
      | none =>
          rw [hak] at h
          dsimp only at h
          rw [hkl] at h
          simp only [Bool.false_eq_true, if_false] at h
          obtain ⟨ihlen, ihkeep, ihpad, ihwr⟩ := ih hnlr hndr z c h
          have hwcons : ∀ j, writtenAt ((k, v) :: rest) j
              = writtenAt rest j := by
            intro j
            simp only [writtenAt, hak]
          have hbcons : idxBound ((k, v) :: rest) = idxBound rest := by
            simp only [idxBound, hak]
          refine ⟨by rw [hbcons]; exact ihlen, ?_, ?_, ?_⟩
          · intro j hj hjz
            exact ihkeep j (by rwa [hwcons] at hj) hjz
          · intro j hj hjz hjc
            exact ihpad j (by rwa [hwcons] at hj) hjz hjc
          · intro j v' hj
            exact ihwr j v' (by rwa [hwcons] at hj)

/-- A `length`-free `for...in` run over an array target succeeds as soon as
each written slot's merge succeeds. -/
theorem mergeIntoArrE_ok : ∀ (s : List (String × JVal)),
    noLen s = true → nodupKeys s = true →
    ∀ z, (∀ j v, writtenAt s j = some v →
        ∃ w, mergeValE (z.get? j) v = .ok w) →
      ∃ c, mergeIntoArrE z s = .ok c := by
  intro s
  induction s with
  | nil => intro _ _ z _; exact ⟨z, mergeIntoArrE_nil z⟩
  | cons p rest ih =>
      obtain ⟨k, v⟩ := p
      intro hnl hnd z hok
      have hnl' := hnl
      unfold noLen at hnl'
      rw [List.all_cons, Bool.and_eq_true] at hnl'
      have hnlr : noLen rest = true := hnl'.2
      have hkl : (k == "length") = false := by simpa using hnl'.1
      obtain ⟨hany, hndr⟩ := nodupKeys_cons k v rest hnd
      cases hak : arrIndex k with
      | some i =>
          have hwcons : ∀ j, writtenAt ((k, v) :: rest) j
              = if i = j then some v else writtenAt rest j := by
            intro j
            simp only [writtenAt, hak]
          obtain ⟨w, hw⟩ := hok i v (by rw [hwcons i, if_pos rfl])
          have hok2 : ∀ j v', writtenAt rest j = some v' →
              ∃ w', mergeValE ((setElem z i w).get? j) v' = .ok w' := by
            intro j v' hj
            have hij : i ≠ j := by
              intro hij
              subst hij
              rw [writtenAt_none_of_keys_ne rest k i hak hany] at hj
              exact Option.noConfusion hj
            obtain ⟨w', hw'⟩ := hok j v'
              (by rw [hwcons j, if_neg hij]; exact hj)
            refine ⟨w', ?_⟩
            by_cases hjz : j < z.length
            · rwa [setElem_get?_lt z i j w (Ne.symm hij) hjz]
            · by_cases hjl : j < (setElem z i w).length
              · rw [setElem_get?_pad z i j w (Ne.symm hij) (by omega) hjl]
                rw [mergeValE_null_cur]
                rwa [get?_eq_none_of_ge z j (by omega)] at hw'
              · rw [get?_eq_none_of_ge _ j (by omega)]
                rwa [get?_eq_none_of_ge z j (by omega)] at hw'
          obtain ⟨c, hc⟩ := ih hnlr hndr (setElem z i w) hok2
          refine ⟨c, ?_⟩
          simp only [mergeIntoArrE, hak]
          rw [hw]
          exact hc
      | none =>
          have hok2 : ∀ j v', writtenAt rest j = some v' →
              ∃ w', mergeValE (z.get? j) v' = .ok w' := by
            intro j v' hj
            exact hok j v' (by simp only [writtenAt, hak]; exact hj)
          obtain ⟨c, hc⟩ := ih hnlr hndr z hok2
          refine ⟨c, ?_⟩
          simp only [mergeIntoArrE, hak]
          rw [hkl]
          simp only [Bool.false_eq_true, if_false]
          exact hc

theorem noLen_of_keys_ne (s : List (String × JVal))
    (h : ∀ p ∈ s, p.1 ≠ "length") : noLen s = true := by
  unfold noLen
  rw [List.all_eq_true]
  intro p hp
  simpa using h p hp

/-- A key list with pairwise-distinct keys contains at most one `length`
entry: split at the first one. -/
theorem length_key_split (s : List (String × JVal)) :
    noLen s = true ∨
    ∃ s₁ lv s₂, s = s₁ ++ ("length", lv) :: s₂ ∧ noLen s₁ = true := by
  induction s with
  | nil => left; rfl
  | cons p rest ih =>
      obtain ⟨k, v⟩ := p
      by_cases hk : k = "length"
      · right
        exact ⟨[], v, rest, by rw [hk]; rfl, rfl⟩
      · rcases ih with h | ⟨s₁, lv, s₂, heq, hnl⟩
        · left
          unfold noLen at h ⊢
          rw [List.all_cons, h]
          simp [hk]
        · right
          refine ⟨(k, v) :: s₁, lv, s₂, by rw [heq]; rfl, ?_⟩
          unfold noLen at hnl ⊢
          rw [List.all_cons, hnl]
          simp [hk]

theorem nodupKeys_append_right (s₁ s₂ : List (String × JVal))
    (h : nodupKeys (s₁ ++ s₂) = true) : nodupKeys s₂ = true := by
  induction s₁ with
  | nil => exact h
  | cons p rest ih =>
      obtain ⟨k, v⟩ := p
      exact ih (nodupKeys_cons k v _ h).2

theorem nodupKeys_append_left (s₁ s₂ : List (String × JVal))
    (h : nodupKeys (s₁ ++ s₂) = true) : nodupKeys s₁ = true := by
  induction s₁ with
  | nil => rfl
  | cons p rest ih =>
      obtain ⟨k, v⟩ := p
      obtain ⟨hany, hrest⟩ := nodupKeys_cons k v _ h
      unfold nodupKeys
      rw [Bool.and_eq_true, Bool.not_eq_true', List.any_eq_false]
      refine ⟨?_, ih hrest⟩
      intro p hp
      simpa using hany p (List.mem_append.2 (Or.inl hp))

theorem nodupKeys_append_disjoint (u w : List (String × JVal))
    (h : nodupKeys (u ++ w) = true) :
    ∀ p ∈ u, ∀ q ∈ w, p.1 ≠ q.1 := by
  induction u with
  | nil => intro p hp; simp at hp
  | cons e rest ih =>
      obtain ⟨k, v⟩ := e
      obtain ⟨hany, hrest⟩ := nodupKeys_cons k v _ h
      intro p hp q hq
      rcases List.mem_cons.1 hp with hp | hp
      · subst hp
        exact fun hh =>
          hany q (List.mem_append.2 (Or.inr hq)) hh.symm
      · exact ih hrest p hp q hq

theorem writtenAt_mem (s : List (String × JVal)) (j : ℕ) (v : JVal)
    (h : writtenAt s j = some v) : ∃ k, (k, v) ∈ s ∧ arrIndex k = some j := by
  induction s with
  | nil => exact Option.noConfusion h
  | cons p rest ih =>
      obtain ⟨k, w⟩ := p
      simp only [writtenAt] at h
      cases hk : arrIndex k with
      | some i =>
          rw [hk] at h
          dsimp only at h
          by_cases hij : i = j
          · rw [if_pos hij] at h
            injection h with h
            subst h
            subst hij
            exact ⟨k, List.mem_cons_self _ _, hk⟩
          · rw [if_neg hij] at h
            obtain ⟨k', hk', ha'⟩ := ih h
            exact ⟨k', List.mem_cons_of_mem _ hk', ha'⟩
      | none =>
          rw [hk] at h
          dsimp only at h
          obtain ⟨k', hk', ha'⟩ := ih h
          exact ⟨k', List.mem_cons_of_mem _ hk', ha'⟩

/-- With pairwise-distinct keys, an index written on the left of a split is
never written on the right: distinct canonical keys read as distinct
indices. -/
theorem writtenAt_disjoint (u w : List (String × JVal))
    (hnd : nodupKeys (u ++ w) = true) (j : ℕ) (v : JVal)
    (h : writtenAt u j = some v) : writtenAt w j = none := by
  obtain ⟨k, hmem, hidx⟩ := writtenAt_mem u j v h
  apply writtenAt_none_of_keys_ne w k j hidx
  intro p hp
  exact fun hh =>
    nodupKeys_append_disjoint u w hnd (k, v) hmem p hp hh.symm

theorem lt_of_get?_eq_some {α : Type} {l : List α} {j : ℕ} {x : α}
    (h : l.get? j = some x) : j < l.length := by
  by_contra hj
  rw [get?_eq_none_of_ge l j (by omega)] at h
  exact Option.noConfusion h

theorem list_ext_get? {α : Type} (l₁ l₂ : List α)
    (h : ∀ j, l₁.get? j = l₂.get? j) : l₁ = l₂ := by
  apply List.ext_getElem?
  intro j
  have := h j
  rwa [List.get?_eq_getElem?, List.get?_eq_getElem?] at this

theorem entriesAt_mergeFieldsE_frame (s : List (String × JVal)) (k : String)
    (hs : ∀ p ∈ s, p.1 ≠ k) :
    ∀ t r, mergeFieldsE t s = .ok r → entriesAt r k = entriesAt t k := by
  induction s with
  | nil =>
      intro t r h
      rw [mergeFieldsE_nil] at h
      cases h
      rfl
  | cons p rest ih =>
      intro t r h
      obtain ⟨k0, v0⟩ := p
      simp only [mergeFieldsE] at h
      cases hmv : mergeValE (getKey t k0) v0 with
      | error e => rw [hmv] at h; exact Except.noConfusion h
      | ok w =>
          rw [hmv] at h
          have hk0 : k ≠ k0 :=
            fun hh => (hs (k0, v0) (List.mem_cons_self _ _)) hh.symm
          rw [ih (fun q hq => hs q (List.mem_cons_of_mem _ hq)) _ r h,
            entriesAt_setKey_ne _ _ _ _ hk0]

/-- Replaying a successful `for...in` run over an object target is a no-op:
each key re-reads exactly the value the first run wrote, and (by the
hypothesis, discharged by the mutual induction below) re-merging a source
value into its own merge result returns it unchanged. -/
theorem mergeFieldsE_idem_core : ∀ (s : List (String × JVal)),
    nodupKeys s = true →
    (∀ k v, (k, v) ∈ s → ∀ cur w, mergeValE cur v = .ok w →
      mergeValE (some w) v = .ok w) →
    ∀ t r, mergeFieldsE t s = .ok r → mergeFieldsE r s = .ok r := by
  intro s
  induction s with
  | nil =>
      intro _ _ t r h
      rw [mergeFieldsE_nil] at h
      cases h
      exact mergeFieldsE_nil t
  | cons p rest ih =>
      obtain ⟨k, v⟩ := p
      intro hnd hidem t r hrun
      obtain ⟨hany, hndr⟩ := nodupKeys_cons k v rest hnd
      simp only [mergeFieldsE] at hrun ⊢
      cases hmv : mergeValE (getKey t k) v with
      | error e => rw [hmv] at hrun; exact Except.noConfusion hrun
      | ok w =>
          rw [hmv] at hrun
          dsimp only at hrun
          have hrw : getKey r k = some w := by
            rw [getKey_mergeFieldsE_frame rest k hany _ r hrun,
              getKey_setKey_self]
          rw [hrw]
          rw [hidem k v (List.mem_cons_self _ _) (getKey t k) w hmv]
          dsimp only
          have hset : setKey r k w = r := by
            apply setKey_eq_self
            · intro e he
              rw [entriesAt_mergeFieldsE_frame rest k hany _ r hrun] at he
              exact entriesAt_setKey_self_all t k _ e he
            · rw [entriesAt_mergeFieldsE_frame rest k hany _ r hrun]
              exact entriesAt_setKey_self_ne_nil t k _
          rw [hset]
          exact ih hndr
            (fun k' v' hm => hidem k' v' (List.mem_cons_of_mem _ hm))
            _ r hrun

theorem arrIndex_len_none : arrIndex "length" = none := by decide

/-- A numeric-coercible `length` entry acts as a pure resize. -/
theorem mergeIntoArrE_len_step (a : List JVal) (lv : JVal)
    (rest : List (String × JVal)) (n : ℕ) (hobj : isObjVal lv = false)
    (hlc : lenCoerce lv = some n) :
    mergeIntoArrE a (("length", lv) :: rest)
      = mergeIntoArrE (setLength a n) rest := by
  simp only [mergeIntoArrE, arrIndex_len_none]
  rw [if_pos (by decide : (("length" : String) == "length") = true)]
  cases lv with
  | obj gs => simp [isObjVal] at hobj
  | null => dsimp only; rw [hlc]
  | bool b => dsimp only; rw [hlc]
  | num m => dsimp only; rw [hlc]
  | str s => dsimp only; rw [hlc]
  | arr ys => dsimp only; rw [hlc]

/-- An empty-object `length` entry on a nonempty array is a no-op. -/
theorem mergeIntoArrE_lenObj_step (a : List JVal)
    (gs rest : List (String × JVal)) (ha : (a.length == 0) = false)
    (hgs : gs.isEmpty = true) :
    mergeIntoArrE a (("length", .obj gs) :: rest) = mergeIntoArrE a rest := by
  simp only [mergeIntoArrE, arrIndex_len_none]
  rw [if_pos (by decide : (("length" : String) == "length") = true)]
  rw [ha]
  simp only [Bool.false_eq_true, if_false]
  rw [hgs]
  simp only [if_true]

/-- Replaying a successful `length`-free run from its own output changes
nothing: every written slot already holds its own re-merge. -/
theorem mergeIntoArrE_idem_noLen (s : List (String × JVal))
    (hnl : noLen s = true) (hnd : nodupKeys s = true)
    (hidem : ∀ k v, (k, v) ∈ s → ∀ cur w, mergeValE cur v = .ok w →
      mergeValE (some w) v = .ok w)
    (xs ys : List JVal) (hrun : mergeIntoArrE xs s = .ok ys) :
    mergeIntoArrE ys s = .ok ys := by
  obtain ⟨hlen1, hkeep1, hpad1, hwr1⟩ := mergeIntoArrE_char s hnl hnd xs ys hrun
  have hok : ∀ j v, writtenAt s j = some v →
      ∃ w, mergeValE (ys.get? j) v = .ok w := by
    intro j v hj
    obtain ⟨w, hw, hyj⟩ := hwr1 j v hj
    obtain ⟨k, hmem, _⟩ := writtenAt_mem s j v hj
    exact ⟨w, by rw [hyj]; exact hidem k v hmem _ w hw⟩
  obtain ⟨c, hc⟩ := mergeIntoArrE_ok s hnl hnd ys hok
  obtain ⟨hlen2, hkeep2, hpad2, hwr2⟩ := mergeIntoArrE_char s hnl hnd ys c hc
  have hcys : c = ys := by
    apply list_ext_get?
    intro j
    cases hj : writtenAt s j with
    | some v =>
        obtain ⟨w, hw, hyj⟩ := hwr1 j v hj
        obtain ⟨k, hmem, _⟩ := writtenAt_mem s j v hj
        obtain ⟨w2, hw2, hcj⟩ := hwr2 j v hj
        have hsame : mergeValE (ys.get? j) v = .ok w := by
          rw [hyj]; exact hidem k v hmem _ w hw
        rw [hsame] at hw2
        injection hw2 with hw2
        rw [hcj, hyj, hw2]
    | none =>
        by_cases hjl : j < ys.length
        · exact hkeep2 j hj hjl
        · rw [get?_eq_none_of_ge c j (by omega),
            get?_eq_none_of_ge ys j (by omega)]
  rw [hcys] at hc
  exact hc

/-- The replay construction across a numeric `length` entry: rerunning the
prefix from the final array, resizing, and rerunning the suffix reproduces
the final array exactly — surviving slots re-merge to themselves, slots the
resize cuts are rebuilt from scratch exactly as the first run built them,
and the cut discards any difference. -/
theorem mergeIntoArrE_idem_split (s₁ s₂ : List (String × JVal))
    (hnl₁ : noLen s₁ = true) (hnl₂ : noLen s₂ = true)
    (hnd₁ : nodupKeys s₁ = true) (hnd₂ : nodupKeys s₂ = true)
    (hdisj : ∀ j v, writtenAt s₁ j = some v → writtenAt s₂ j = none)
    (hfresh : ∀ k v, (k, v) ∈ s₁ → ∃ w, mergeValE none v = .ok w)
    (hidem₁ : ∀ k v, (k, v) ∈ s₁ → ∀ cur w, mergeValE cur v = .ok w →
      mergeValE (some w) v = .ok w)
    (hidem₂ : ∀ k v, (k, v) ∈ s₂ → ∀ cur w, mergeValE cur v = .ok w →
      mergeValE (some w) v = .ok w)
    (n : ℕ) (xs A ys : List JVal)
    (hA : mergeIntoArrE xs s₁ = .ok A)
    (hrun₂ : mergeIntoArrE (setLength A n) s₂ = .ok ys) :
    ∃ B, mergeIntoArrE ys s₁ = .ok B ∧
      mergeIntoArrE (setLength B n) s₂ = .ok ys := by
  obtain ⟨hl1, hk1, hp1, hw1⟩ := mergeIntoArrE_char s₁ hnl₁ hnd₁ xs A hA
  obtain ⟨hl2, hk2, hp2, hw2⟩ :=
    mergeIntoArrE_char s₂ hnl₂ hnd₂ (setLength A n) ys hrun₂
  have hAlen : (setLength A n).length = n := setLength_length A n
  have hyslen : n ≤ ys.length := by rw [hl2, hAlen]; omega
  have hys_wr₁ : ∀ j v, writtenAt s₁ j = some v → j < n →
      ∃ w, mergeValE (xs.get? j) v = .ok w ∧ ys.get? j = some w := by
    intro j v hj hjn
    obtain ⟨w, hw, hAj⟩ := hw1 j v hj
    have hjA : j < A.length := lt_of_get?_eq_some hAj
    refine ⟨w, hw, ?_⟩
    rw [hk2 j (hdisj j v hj) (by rw [hAlen]; exact hjn),
      setLength_get?_keep A n j hjn hjA]
    exact hAj
  have hok₁ : ∀ j v, writtenAt s₁ j = some v →
      ∃ w, mergeValE (ys.get? j) v = .ok w := by
    intro j v hj
    obtain ⟨k, hmem, _⟩ := writtenAt_mem s₁ j v hj
    by_cases hjn : j < n
    · obtain ⟨w, hw, hyj⟩ := hys_wr₁ j v hj hjn
      exact ⟨w, by rw [hyj]; exact hidem₁ k v hmem _ w hw⟩
    · obtain ⟨w, hw⟩ := hfresh k v hmem
      by_cases hjy : j < ys.length
      · rw [hp2 j (hdisj j v hj) (by rw [hAlen]; omega) hjy,
          mergeValE_null_cur]
        exact ⟨w, hw⟩
      · rw [get?_eq_none_of_ge ys j (by omega)]
        exact ⟨w, hw⟩
  obtain ⟨B, hB⟩ := mergeIntoArrE_ok s₁ hnl₁ hnd₁ ys hok₁
  obtain ⟨hlB, hkB, hpB, hwB⟩ := mergeIntoArrE_char s₁ hnl₁ hnd₁ ys B hB
  have hBn : n ≤ B.length := by rw [hlB]; omega
  have hBeq : ∀ j, j < n → B.get? j = ys.get? j := by
    intro j hjn
    cases hj : writtenAt s₁ j with
    | some v =>
        obtain ⟨w', hw', hBj⟩ := hwB j v hj
        obtain ⟨w, hw, hyj⟩ := hys_wr₁ j v hj hjn
        obtain ⟨k, hmem, _⟩ := writtenAt_mem s₁ j v hj
        have hsame : mergeValE (ys.get? j) v = .ok w := by
          rw [hyj]; exact hidem₁ k v hmem _ w hw
        rw [hsame] at hw'
        injection hw' with hw'
        rw [hBj, hyj, hw']
    | none => exact hkB j hj (by omega)
  have hB'len : (setLength B n).length = n := setLength_length B n
  have hB' : ∀ j, (setLength B n).get? j
      = if j < n then ys.get? j else none := by
    intro j
    by_cases hjn : j < n
    · rw [if_pos hjn, setLength_get?_keep B n j hjn (by omega)]
      exact hBeq j hjn
    · rw [if_neg hjn]
      exact get?_eq_none_of_ge _ j (by rw [hB'len]; omega)
  have hok₂ : ∀ j v, writtenAt s₂ j = some v →
      ∃ w, mergeValE ((setLength B n).get? j) v = .ok w := by
    intro j v hj
    obtain ⟨w, hw, hyj⟩ := hw2 j v hj
    obtain ⟨k, hmem, _⟩ := writtenAt_mem s₂ j v hj
    rw [hB' j]
    by_cases hjn : j < n
    · rw [if_pos hjn, hyj]
      exact ⟨w, hidem₂ k v hmem _ w hw⟩
    · rw [if_neg hjn]
      rw [get?_eq_none_of_ge _ j (by rw [hAlen]; omega)] at hw
      exact ⟨w, hw⟩
  obtain ⟨C, hC⟩ := mergeIntoArrE_ok s₂ hnl₂ hnd₂ (setLength B n) hok₂
  obtain ⟨hlC, hkC, hpC, hwC⟩ :=
    mergeIntoArrE_char s₂ hnl₂ hnd₂ (setLength B n) C hC
  have hClen : C.length = ys.length := by
    rw [hlC, hB'len, hl2, hAlen]
  have hCys : C = ys := by
    apply list_ext_get?
    intro j
    cases hj : writtenAt s₂ j with
    | some v =>
        obtain ⟨w, hw, hyj⟩ := hw2 j v hj
        obtain ⟨w', hw', hCj⟩ := hwC j v hj
        obtain ⟨k, hmem, _⟩ := writtenAt_mem s₂ j v hj
        have hsame : mergeValE ((setLength B n).get? j) v = .ok w := by
          rw [hB' j]
          by_cases hjn : j < n
          · rw [if_pos hjn, hyj]
            exact hidem₂ k v hmem _ w hw
          · rw [if_neg hjn]
            rw [get?_eq_none_of_ge _ j (by rw [hAlen]; omega)] at hw
            exact hw
        rw [hsame] at hw'
        injection hw' with hw'
        rw [hCj, hyj, hw']
    | none =>
        by_cases hjn : j < n
        · rw [hkC j hj (by rw [hB'len]; exact hjn), hB' j, if_pos hjn]
        · by_cases hjy : j < ys.length
          · rw [hpC j hj (by rw [hB'len]; omega) (by omega),
              hp2 j hj (by rw [hAlen]; omega) hjy]
          · rw [get?_eq_none_of_ge C j (by omega),
              get?_eq_none_of_ge ys j (by omega)]
  exact ⟨B, hB, by rw [← hCys]; exact hC⟩

/-- Replaying a successful run over an array target from its own output is a
no-op, for any source an actual JavaScript object can supply. -/
theorem mergeIntoArrE_idem_core (s : List (String × JVal))
    (hnd : nodupKeys s = true) (hwf : jsWFFields s = true)
    (hidem : ∀ k v, (k, v) ∈ s → ∀ cur w, mergeValE cur v = .ok w →
      mergeValE (some w) v = .ok w)
    (xs ys : List JVal) (hrun : mergeIntoArrE xs s = .ok ys) :
    mergeIntoArrE ys s = .ok ys := by
  rcases length_key_split s with hnl | ⟨s₁, lv, s₂, heq, hnl₁⟩
  · exact mergeIntoArrE_idem_noLen s hnl hnd hidem xs ys hrun
  · subst heq
    have hnd₁ : nodupKeys s₁ = true := nodupKeys_append_left _ _ hnd
    have hndmid : nodupKeys (("length", lv) :: s₂) = true :=
      nodupKeys_append_right _ _ hnd
    obtain ⟨hany₂, hnd₂⟩ := nodupKeys_cons _ _ _ hndmid
    have hnl₂ : noLen s₂ = true := noLen_of_keys_ne s₂ hany₂
    have hdisj : ∀ j v, writtenAt s₁ j = some v → writtenAt s₂ j = none := by
      intro j v hj
      have := writtenAt_disjoint s₁ (("length", lv) :: s₂) hnd j v hj
      simpa only [writtenAt, arrIndex_len_none] using this
    have hidem₁ : ∀ k v, (k, v) ∈ s₁ → ∀ cur w, mergeValE cur v = .ok w →
        mergeValE (some w) v = .ok w :=
      fun k v hm => hidem k v (List.mem_append.2 (Or.inl hm))
    have hidem₂ : ∀ k v, (k, v) ∈ s₂ → ∀ cur w, mergeValE cur v = .ok w →
        mergeValE (some w) v = .ok w :=
      fun k v hm => hidem k v
        (List.mem_append.2 (Or.inr (List.mem_cons_of_mem _ hm)))
    have hfresh : ∀ k v, (k, v) ∈ s₁ → ∃ w, mergeValE none v = .ok w := by
      intro k v hm
      have hv : jsWF v = true := by
        have := jsWFFields_mem _ hwf (k, v) (List.mem_append.2 (Or.inl hm))
        exact this
      exact ⟨mergeVal none v, mergeValE_fresh v hv⟩
    rw [mergeIntoArrE_append] at hrun
    cases hA : mergeIntoArrE xs s₁ with
    | error e => rw [hA] at hrun; exact Except.noConfusion hrun
    | ok A =>
        rw [hA] at hrun
        dsimp only at hrun
        cases hlv : isObjVal lv with
        | false =>
            cases hlc : lenCoerce lv with
            | some n =>
                rw [mergeIntoArrE_len_step A lv s₂ n hlv hlc] at hrun
                obtain ⟨B, hB, hC⟩ := mergeIntoArrE_idem_split s₁ s₂ hnl₁
                  hnl₂ hnd₁ hnd₂ hdisj hfresh hidem₁ hidem₂ n xs A ys hA hrun
                rw [mergeIntoArrE_append, hB]
                dsimp only
                rw [mergeIntoArrE_len_step B lv s₂ n hlv hlc]
                exact hC
            | none =>
                exfalso
                cases lv with
                | obj gs => simp [isObjVal] at hlv
                | null =>
                    simp only [mergeIntoArrE, arrIndex_len_none] at hrun
                    rw [if_pos (by decide :
                      (("length" : String) == "length") = true)] at hrun
                    rw [hlc] at hrun
                    exact Except.noConfusion hrun
                | bool b =>
                    simp only [mergeIntoArrE, arrIndex_len_none] at hrun
                    rw [if_pos (by decide :
                      (("length" : String) == "length") = true)] at hrun
                    rw [hlc] at hrun
                    exact Except.noConfusion hrun
                | num m =>
                    simp only [mergeIntoArrE, arrIndex_len_none] at hrun
                    rw [if_pos (by decide :
                      (("length" : String) == "length") = true)] at hrun
                    rw [hlc] at hrun
                    exact Except.noConfusion hrun
                | str st =>
                    simp only [mergeIntoArrE, arrIndex_len_none] at hrun
                    rw [if_pos (by decide :
                      (("length" : String) == "length") = true)] at hrun
                    rw [hlc] at hrun
                    exact Except.noConfusion hrun
                | arr zs =>
                    simp only [mergeIntoArrE, arrIndex_len_none] at hrun
                    rw [if_pos (by decide :
                      (("length" : String) == "length") = true)] at hrun
                    rw [hlc] at hrun
                    exact Except.noConfusion hrun
        | true =>
            cases lv with
            | obj gs =>
                simp only [mergeIntoArrE, arrIndex_len_none] at hrun
                rw [if_pos (by decide :
                  (("length" : String) == "length") = true)] at hrun
                cases hA0 : (A.length == 0) with
                | true =>
                    rw [hA0] at hrun
                    simp only [if_true] at hrun
                    exact Except.noConfusion hrun
                | false =>
                    rw [hA0] at hrun
                    simp only [Bool.false_eq_true, if_false] at hrun
                    cases hgs : gs.isEmpty with
                    | false =>
                        rw [hgs] at hrun
                        simp only [Bool.false_eq_true, if_false] at hrun
                        exact Except.noConfusion hrun
                    | true =>
                        rw [hgs] at hrun
                        simp only [if_true] at hrun
                        obtain ⟨hl1, hk1, hp1, hw1⟩ :=
                          mergeIntoArrE_char s₁ hnl₁ hnd₁ xs A hA
                        obtain ⟨hl2, hk2, hp2, hw2⟩ :=
                          mergeIntoArrE_char s₂ hnl₂ hnd₂ A ys hrun
                        have hAy : A.length ≤ ys.length := by
                          rw [hl2]; omega
                        have hys_wr₁ : ∀ j v, writtenAt s₁ j = some v →
                            ∃ w, mergeValE (xs.get? j) v = .ok w ∧
                              ys.get? j = some w := by
                          intro j v hj
                          obtain ⟨w, hw, hAj⟩ := hw1 j v hj
                          have hjA : j < A.length := lt_of_get?_eq_some hAj
                          refine ⟨w, hw, ?_⟩
                          rw [hk2 j (hdisj j v hj) hjA]
                          exact hAj
                        have hok₁ : ∀ j v, writtenAt s₁ j = some v →
                            ∃ w, mergeValE (ys.get? j) v = .ok w := by
                          intro j v hj
                          obtain ⟨k, hmem, _⟩ := writtenAt_mem s₁ j v hj
                          obtain ⟨w, hw, hyj⟩ := hys_wr₁ j v hj
                          exact ⟨w, by
                            rw [hyj]; exact hidem₁ k v hmem _ w hw⟩
                        obtain ⟨B, hB⟩ :=
                          mergeIntoArrE_ok s₁ hnl₁ hnd₁ ys hok₁
                        obtain ⟨hlB, hkB, hpB, hwB⟩ :=
                          mergeIntoArrE_char s₁ hnl₁ hnd₁ ys B hB
                        have hBys : B = ys := by
                          apply list_ext_get?
                          intro j
                          by_cases hjy : j < ys.length
                          · cases hj : writtenAt s₁ j with
                            | some v =>
                                obtain ⟨w', hw', hBj⟩ := hwB j v hj
                                obtain ⟨w, hw, hyj⟩ := hys_wr₁ j v hj
                                obtain ⟨k, hmem, _⟩ := writtenAt_mem s₁ j v hj
                                have hsame : mergeValE (ys.get? j) v
                                    = .ok w := by
                                  rw [hyj]
                                  exact hidem₁ k v hmem _ w hw
                                rw [hsame] at hw'
                                injection hw' with hw'
                                rw [hBj, hyj, hw']
                            | none => exact hkB j hj hjy
                          · have hBlen : B.length = ys.length := by
                              rw [hlB]
                              have h1 : idxBound s₁ ≤ A.length := by
                                rw [hl1]
                                omega
                              omega
                            rw [get?_eq_none_of_ge B j (by omega),
                              get?_eq_none_of_ge ys j (by omega)]
                        have hys0 : (ys.length == 0) = false := by
                          have hA0' : A.length ≠ 0 := by simpa using hA0
                          have hys : ys.length ≠ 0 := by
                            rw [hl2]
                            omega
                          simpa using hys
                        rw [mergeIntoArrE_append]
                        rw [hBys] at hB
                        rw [hB]
                        dsimp only
                        rw [mergeIntoArrE_lenObj_step ys gs s₂ hys0 hgs]
                        exact mergeIntoArrE_idem_noLen s₂ hnl₂ hnd₂ hidem₂
                          A ys hrun
            | null => simp [isObjVal] at hlv
            | bool b => simp [isObjVal] at hlv
            | num m => simp [isObjVal] at hlv
            | str st => simp [isObjVal] at hlv
            | arr zs => simp [isObjVal] at hlv

mutual

/-- Re-merging a representable source value into its own merge result
returns the result unchanged. -/
theorem mergeValE_idem : ∀ (v : JVal), jsWF v = true →
    ∀ cur w, mergeValE cur v = .ok w → mergeValE (some w) v = .ok w
  | .null, _, cur, w, h => by
      simp only [mergeValE] at h
      cases h
      rfl
  | .bool b, _, cur, w, h => by
      simp only [mergeValE] at h
      cases h
      rfl
  | .num n, _, cur, w, h => by
      simp only [mergeValE] at h
      cases h
      rfl
  | .str s, _, cur, w, h => by
      simp only [mergeValE] at h
      cases h
      rfl
  | .arr xs, _, cur, w, h => by
      simp only [mergeValE] at h
      cases h
      rfl
  | .obj fs, hwf, cur, w, h => by
      obtain ⟨hnd, hwff⟩ := jsWF_obj fs hwf
      have hidem : ∀ k v, (k, v) ∈ fs → ∀ cur' w',
          mergeValE cur' v = .ok w' → mergeValE (some w') v = .ok w' :=
        mergeValEFields_idem fs hwff
      have hfromFields : ∀ r, mergeFieldsE [] fs = .ok r →
          mergeValE (some (.obj r)) (.obj fs) = .ok (.obj r) := by
        intro r hr
        simp only [mergeValE, truthy, if_true]
        rw [mergeFieldsE_idem_core fs hnd hidem [] r hr]
        rfl
      cases cur with
      | none =>
          simp only [mergeValE] at h
          cases hr : mergeFieldsE [] fs with
          | error e =>
              rw [hr] at h
              simp only [Except.map] at h
              exact Except.noConfusion h
          | ok r =>
              rw [hr] at h
              simp only [Except.map] at h
              cases h
              exact hfromFields r hr
      | some c =>
          cases c with
          | obj cfs =>
              simp only [mergeValE, truthy, if_true] at h
              cases hr : mergeFieldsE cfs fs with
              | error e =>
                  rw [hr] at h
                  simp only [Except.map] at h
                  exact Except.noConfusion h
              | ok r =>
                  rw [hr] at h
                  simp only [Except.map] at h
                  cases h
                  simp only [mergeValE, truthy, if_true]
                  rw [mergeFieldsE_idem_core fs hnd hidem cfs r hr]
                  rfl
          | arr xs =>
              simp only [mergeValE, truthy, if_true] at h
              cases hr : mergeIntoArrE xs fs with
              | error e =>
                  rw [hr] at h
                  simp only [Except.map] at h
                  exact Except.noConfusion h
              | ok ys =>
                  rw [hr] at h
                  simp only [Except.map] at h
                  cases h
                  simp only [mergeValE, truthy, if_true]
                  rw [mergeIntoArrE_idem_core fs hnd hwff hidem xs ys hr]
                  rfl
          | null =>
              simp only [mergeValE, truthy, Bool.false_eq_true, if_false] at h
              cases hr : mergeFieldsE [] fs with
              | error e =>
                  rw [hr] at h
                  simp only [Except.map] at h
                  exact Except.noConfusion h
              | ok r =>
                  rw [hr] at h
                  simp only [Except.map] at h
                  cases h
                  exact hfromFields r hr
          | bool b =>
              cases b with
              | false =>
                  simp only [mergeValE, truthy, Bool.false_eq_true,
                    if_false] at h
                  cases hr : mergeFieldsE [] fs with
                  | error e =>
                      rw [hr] at h
                      simp only [Except.map] at h
                      exact Except.noConfusion h
                  | ok r =>
                      rw [hr] at h
                      simp only [Except.map] at h
                      cases h
                      exact hfromFields r hr
              | true =>
                  simp only [mergeValE, truthy, if_true] at h
                  cases fs with
                  | nil =>
                      simp only [List.isEmpty_nil, if_true] at h
                      cases h
                      rfl
                  | cons q qs =>
                      simp only [List.isEmpty_cons, Bool.false_eq_true,
                        if_false] at h
                      exact Except.noConfusion h
          | num n =>
              by_cases hn : n = 0
              · subst hn
                simp only [mergeValE, truthy, bne_self_eq_false,
                  Bool.false_eq_true, if_false] at h
                cases hr : mergeFieldsE [] fs with
                | error e =>
                    rw [hr] at h
                    simp only [Except.map] at h
                    exact Except.noConfusion h
                | ok r =>
                    rw [hr] at h
                    simp only [Except.map] at h
                    cases h
                    exact hfromFields r hr
              · have ht : truthy (JVal.num n) = true := by simp [truthy, hn]
                simp only [mergeValE, ht, if_true] at h
                cases fs with
                | nil =>
                    simp only [List.isEmpty_nil, if_true] at h
                    cases h
                    simp only [mergeValE, ht, if_true, List.isEmpty_nil]
                | cons q qs =>
                    simp only [List.isEmpty_cons, Bool.false_eq_true,
                      if_false] at h
                    exact Except.noConfusion h
          | str st =>
              by_cases hs : st = ""
              · subst hs
                simp only [mergeValE, truthy, bne_self_eq_false,
                  Bool.false_eq_true, if_false] at h
                cases hr : mergeFieldsE [] fs with
                | error e =>
                    rw [hr] at h
                    simp only [Except.map] at h
                    exact Except.noConfusion h
                | ok r =>
                    rw [hr] at h
                    simp only [Except.map] at h
                    cases h
                    exact hfromFields r hr
              · have ht : truthy (JVal.str st) = true := by simp [truthy, hs]
                simp only [mergeValE, ht, if_true] at h
                cases fs with
                | nil =>
                    simp only [List.isEmpty_nil, if_true] at h
                    cases h
                    simp only [mergeValE, ht, if_true, List.isEmpty_nil]
                | cons q qs =>
                    simp only [List.isEmpty_cons, Bool.false_eq_true,
                      if_false] at h
                    exact Except.noConfusion h

theorem mergeValEFields_idem : ∀ (s : List (String × JVal)),
    jsWFFields s = true →
    ∀ k v, (k, v) ∈ s → ∀ cur w, mergeValE cur v = .ok w →
      mergeValE (some w) v = .ok w
  | [], _, k, v, hm => by simp at hm
  | (k0, v0) :: rest, hwf, k, v, hm => by
      have hv0 : jsWF v0 = true := by
        unfold jsWFFields at hwf; rw [Bool.and_eq_true] at hwf; exact hwf.1
      have hwr : jsWFFields rest = true := by
        unfold jsWFFields at hwf; rw [Bool.and_eq_true] at hwf; exact hwf.2
      rcases List.mem_cons.1 hm with hh | hh
      · injection hh with h1 h2
        subst h2
        exact mergeValE_idem v hv0
      · exact mergeValEFields_idem rest hwr k v hh

end

mutual

theorem jsWF_srcWF : ∀ v, jsWF v = true → srcWF v = true
  | .obj fs, h => by
      obtain ⟨hnd, hwf⟩ := jsWF_obj fs h
      unfold srcWF
      rw [Bool.and_eq_true]
      exact ⟨hnd, jsWFFields_srcWFFields fs hwf⟩
  | .null, _ => rfl
  | .bool _, _ => rfl
  | .num _, _ => rfl
  | .str _, _ => rfl
  | .arr _, _ => rfl

theorem jsWFFields_srcWFFields : ∀ s, jsWFFields s = true →
    srcWFFields s = true
  | [], _ => rfl
  | (k, v) :: rest, h => by
      have h1 : jsWF v = true := by
        unfold jsWFFields at h; rw [Bool.and_eq_true] at h; exact h.1
      have h2 : jsWFFields rest = true := by
        unfold jsWFFields at h; rw [Bool.and_eq_true] at h; exact h.2
      unfold srcWFFields
      rw [Bool.and_eq_true]
      exact ⟨jsWF_srcWF v h1, jsWFFields_srcWFFields rest h2⟩

end

